import Mathlib

/-!
Verification of the Text-Statistics readability library (src/TextStatistics.js).

The embedding models strings as `List Char`.  Every JavaScript regular
expression used by the source is small enough that its global-replace
semantics (leftmost scan, greedy matching, continue after each match,
no rescanning of replaced text) can be realised as a structurally
recursive scanner; each such scanner below carries a comment naming the
regex it implements and the per-position match analysis it was derived
from.  JavaScript numbers are modelled as exact values: integers by
`Int`/`Nat`, and the floating-point readability formulas by `Real`.
The character predicates follow the ASCII orientation of the source
(the spec: non-ASCII letters are treated as non-letters).
-/

namespace TextStatistics

/-- The whitespace class of JavaScript backslash-s: the ASCII part
plus no-break space, ogham space, the Zs run 2000-200a, the line and
paragraph separators, narrow and medium spaces, ideographic space, and
the byte-order mark. -/
def jsWs (c : Char) : Bool :=
  c = ' ' ∨ c = '\t' ∨ c = '\n' ∨ c = '\r' ∨ c = '\x0b' ∨ c = '\x0c' ∨
  c.toNat = 0xa0 ∨ c.toNat = 0x1680 ∨
  (0x2000 ≤ c.toNat ∧ c.toNat ≤ 0x200a) ∨
  c.toNat = 0x2028 ∨ c.toNat = 0x2029 ∨ c.toNat = 0x202f ∨
  c.toNat = 0x205f ∨ c.toNat = 0x3000 ∨ c.toNat = 0xfeff

/-- ASCII lowercasing, the effect of `toLowerCase` on the ASCII range
(0x41 to 0x5a are the code points of A to Z). -/
def asciiLower (c : Char) : Char :=
  if 0x41 ≤ c.toNat ∧ c.toNat ≤ 0x5a then Char.ofNat (c.toNat + 32) else c

/-- `strText.replace(pat, rep)` with a *string* pattern `pat`:
JavaScript replaces only the first occurrence. -/
def replaceFirstStr (pat rep : List Char) : List Char → List Char
  | [] => if pat = [] then rep else []
  | c :: r =>
    if pat.isPrefixOf (c :: r) then rep ++ (c :: r).drop pat.length
    else c :: replaceFirstStr pat rep r

/-- The block-level tag names of `arrFullStopTags`. -/
def arrFullStopTags : List (List Char) :=
  [String.toList "li", String.toList "p", String.toList "h1",
   String.toList "h2", String.toList "h3", String.toList "h4",
   String.toList "h5", String.toList "h6", String.toList "dd"]

/-- The loop `strText = strText.replace('</'+tag+'>', '.')` over
`arrFullStopTags`: for each tag name the *first* occurrence of the
closing tag is replaced by a terminator. -/
def fullStopTagsStep (s : List Char) : List Char :=
  arrFullStopTags.foldl
    (fun acc tag => replaceFirstStr ('<' :: '/' :: (tag ++ ['>'])) ['.'] acc) s

/-- Scanner for `replace(/(<([^>]+)>)/ig, "")` (strip tags).
At a `<` the greedy `[^>]+` cannot cross a `>`, so the pattern matches
iff the first later `>` is at distance at least 2; the match then ends
at that first `>`.  `buf = some mid` records that a `<` was seen and
`mid` (which contains no `>`) has accumulated after it; at a `>` the
buffered text is dropped when `mid` is nonempty (a match) and emitted
as the unmatched `<>` otherwise; at end of input the buffer is emitted
unchanged since no `>` follows the pending `<`. -/
def stripAux (buf : Option (List Char)) : List Char → List Char
  | [] => match buf with
    | none => []
    | some mid => '<' :: mid
  | c :: r => match buf with
    | none => if c = '<' then stripAux (some []) r else c :: stripAux none r
    | some mid =>
      if c = '>' then
        if mid = [] then '<' :: '>' :: stripAux none r else stripAux none r
      else stripAux (some (mid ++ [c])) r

/-- `replace(/(<([^>]+)>)/ig, "")`. -/
def stripTags (s : List Char) : List Char := stripAux none s

/-- `replace(/[,:;()-]/g, ' ')` as a per-character map. -/
def punctToSpace (c : Char) : Char :=
  if c = ',' ∨ c = ':' ∨ c = ';' ∨ c = '(' ∨ c = ')' ∨ c = '-' then ' ' else c

/-- `replace(/[\.!?]/g, '.')` as a per-character map. -/
def unifyTerm (c : Char) : Char :=
  if c = '.' ∨ c = '!' ∨ c = '?' then '.' else c

/-- The suffix of `run` after its last `'\n'`. -/
def afterLastNl (run : List Char) : List Char :=
  (run.reverse.takeWhile (fun c => c ≠ '\n')).reverse

/-- What `replace(/(?:(?:^|\n)\s+|\s+(?:$|\n))/g, '')` does to one
maximal whitespace run, derived from the engine semantics:
at the start of the string, `^\s+` deletes the whole run; a run that
reaches the end of the string is deleted by `\s+$`; a run beginning
with `'\n'` followed by more whitespace is deleted whole by `\n\s+`;
a lone `'\n'` matches nothing and is kept; otherwise `\s+\n` matches
from the run start through the *last* `'\n'` of the run (greedy `\s+`
backtracks to the latest position whose next character is `'\n'`),
and the remaining whitespace after that `'\n'` fails to match at every
later position, hence is kept. -/
def trimWsRun (atStart atEnd : Bool) (run : List Char) : List Char :=
  if run = [] then []
  else if atStart then []
  else if atEnd then []
  else match run with
    | '\n' :: rest => if rest = [] then ['\n'] else []
    | _ => if run.contains '\n' then afterLastNl run else run

/-- Driver for the trim regex: accumulate each maximal whitespace run
into `acc` and flush it with `trimWsRun` at the run boundary.
`atStart` is true while the accumulating run begins at position 0. -/
def trimAux (atStart : Bool) (acc : List Char) : List Char → List Char
  | [] => trimWsRun atStart true acc
  | c :: r =>
    if jsWs c then trimAux atStart (acc ++ [c]) r
    else trimWsRun atStart false acc ++ c :: trimAux false [] r

/-- `replace(/(?:(?:^|\n)\s+|\s+(?:$|\n))/g, '')`. -/
def trimRegex (s : List Char) : List Char := trimAux true [] s

/-- Scanner for `replace(/\s+/g, ' ')`: each maximal whitespace run
becomes a single space.  `absorbing` is true while inside a run whose
space has already been emitted. -/
def cwAux (absorbing : Bool) : List Char → List Char
  | [] => []
  | c :: r =>
    if jsWs c then
      if absorbing then cwAux true r else ' ' :: cwAux true r
    else c :: cwAux false r

/-- `replace(/\s+/g, ' ')`. -/
def collapseWs (s : List Char) : List Char := cwAux false s

/-- Scanner for `replace(/[ ]+/g, ' ')` (spaces only). -/
def spAux (absorbing : Bool) : List Char → List Char
  | [] => []
  | c :: r =>
    if c = ' ' then
      if absorbing then spAux true r else ' ' :: spAux true r
    else c :: spAux false r

/-- `replace(/[ ]+/g, ' ')`. -/
def collapseSp (s : List Char) : List Char := spAux false s

/-- Scanner for `replace(/[ ]*(\n|\r\n|\r)[ ]*/g, ' ')`.
`pending` counts spaces seen that may become the leading `[ ]*` of a
match; `absorbing` is true just after a match, while its trailing
`[ ]*` is still consuming spaces.  A pending run not followed by a
line break fails at every position and is emitted unchanged. -/
def nlAux (pending : Nat) (absorbing : Bool) : List Char → List Char
  | [] => List.replicate pending ' '
  | '\r' :: '\n' :: r => ' ' :: nlAux 0 true r
  | '\n' :: r => ' ' :: nlAux 0 true r
  | '\r' :: r => ' ' :: nlAux 0 true r
  | c :: r =>
    if c = ' ' then
      if absorbing then nlAux 0 true r else nlAux (pending + 1) false r
    else List.replicate pending ' ' ++ c :: nlAux 0 false r

/-- `replace(/[ ]*(\n|\r\n|\r)[ ]*/g, ' ')`. -/
def nlStep (s : List Char) : List Char := nlAux 0 false s

/-- Scanner for `replace(/([\.])[\. ]+/g, '.')` (duplicate-terminator
collapse): a `.` followed by a nonempty run over `{., ' '}` absorbs the
run.  `absorbing` is true just after an emitted `.`, while the run is
being consumed (absorbing nothing is the same as no match). -/
def dedupAux (absorbing : Bool) : List Char → List Char
  | [] => []
  | c :: r =>
    if absorbing then
      if c = '.' ∨ c = ' ' then dedupAux true r else c :: dedupAux false r
    else
      if c = '.' then '.' :: dedupAux true r else c :: dedupAux false r

/-- `replace(/([\.])[\. ]+/g, '.')`. -/
def dedup (s : List Char) : List Char := dedupAux false s

/-- Scanner for `replace(/[ ]*([\.])/g, '. ')` (pad terminators):
any spaces directly before a `.` are consumed into the match and the
`.` is emitted as `. `; spaces not before a `.` fail at every position
inside their run and are emitted unchanged (tracked by `pending`). -/
def padAux (pending : Nat) : List Char → List Char
  | [] => List.replicate pending ' '
  | c :: r =>
    if c = ' ' then padAux (pending + 1) r
    else if c = '.' then '.' :: ' ' :: padAux 0 r
    else List.replicate pending ' ' ++ c :: padAux 0 r

/-- `replace(/[ ]*([\.])/g, '. ')`. -/
def pad (s : List Char) : List Char := padAux 0 s

/-- `clean_text`, line for line:
tag-to-terminator loop; strip tags; `[,:;()-]` to spaces; `[\.!?]` to
`.`; trim, collapse whitespace and append a final `.`; newline runs to
spaces; duplicate-terminator collapse; pad terminators then re-trim and
re-collapse; collapse multiple spaces; lowercase. -/
def clean_text (strText : List Char) : List Char :=
  let s1 := fullStopTagsStep strText
  let s2 := stripTags s1
  let s3 := s2.map punctToSpace
  let s4 := s3.map unifyTerm
  let s5 := collapseWs (trimRegex s4) ++ ['.']
  let s6 := nlStep s5
  let s7 := dedup s6
  let s8 := collapseSp (collapseWs (trimRegex (pad s7)))
  s8.map asciiLower

/-- `text_length`. -/
def text_length (strText : List Char) : Nat := strText.length

/-- ASCII letter test, the complement of `[^A-Za-z]`. -/
def isAsciiLetter (c : Char) : Bool :=
  ('a' ≤ c ∧ c ≤ 'z') ∨ ('A' ≤ c ∧ c ≤ 'Z')

/-- `letter_count`: clean, drop every non-letter, take the length. -/
def letter_count (strText : List Char) : Nat :=
  ((clean_text strText).filter isAsciiLetter).length

/-- Terminator class `[\.!?]` matched by `sentence_count`. -/
def isTermChar (c : Char) : Bool := c = '.' ∨ c = '!' ∨ c = '?'

/-- `sentence_count` exactly as written: `match(/[\.!?]/g)` yields
`null` when there is no match, and `null.length` would throw, which we
model by `none`; otherwise the number of matches. -/
def sentence_count_js (strText : List Char) : Option Nat :=
  let cleaned := clean_text strText
  if cleaned.countP isTermChar = 0 then none
  else some (cleaned.countP isTermChar)

/-- The value `sentence_count` actually returns (the `none` case of
`sentence_count_js` is proved unreachable below). -/
def sentence_count (strText : List Char) : Nat :=
  (clean_text strText).countP isTermChar

/-- `word_count`: space count of the cleaned text plus one. -/
def word_count (strText : List Char) : Nat :=
  1 + text_length ((clean_text strText).filter (fun c => c = ' '))

/-! ### The syllable estimator -/

/-- The vowel class `[aeiouy]` used for nucleus counting. -/
def isVowelY (c : Char) : Bool :=
  c = 'a' ∨ c = 'e' ∨ c = 'i' ∨ c = 'o' ∨ c = 'u' ∨ c = 'y'

/-- The vowel class `[aeiou]` (no `y`). -/
def isVowel5 (c : Char) : Bool :=
  c = 'a' ∨ c = 'e' ∨ c = 'i' ∨ c = 'o' ∨ c = 'u'

/-- Lowercase ASCII letter, the complement of `[^a-z]`. -/
def isLowerAlpha (c : Char) : Bool := 'a' ≤ c ∧ c ≤ 'z'

/-- `arrProblemWords`: the exception map. -/
def arrProblemWords : List (List Char × Nat) :=
  [(String.toList "simile", 3), (String.toList "forever", 3),
   (String.toList "shoreline", 2)]

/-- Number of nonempty fragments of `split(/[^aeiouy]+/g)`, that is,
the number of maximal vowel runs.  `prevVowel` is true when the
previous character was a vowel (inside a run). -/
def vgAux (prevVowel : Bool) : List Char → Nat
  | [] => 0
  | c :: r =>
    if isVowelY c then
      if prevVowel then vgAux true r else 1 + vgAux true r
    else vgAux false r

/-- Nucleus count of a word. -/
def vowelGroups (s : List Char) : Nat := vgAux false s

/-- Drop the last `k` characters. -/
def dropSuffix (k : Nat) (s : List Char) : List Char := s.take (s.length - k)

/-- The `arrPrefixSuffix` loop: the seven affix patterns are tested in
order against the progressively stripped word; each match is removed
and counted once.  `/^un/` and `/^fore/` are start anchored; the others
are end anchored; `/ers?$/` and `/ings?$/` greedily prefer the longer
suffix. -/
def affixStrip (w0 : List Char) : List Char × Nat :=
  let p1 : List Char × Nat :=
    if (String.toList "un").isPrefixOf w0 then (w0.drop 2, 1) else (w0, 0)
  let p2 : List Char × Nat :=
    if (String.toList "fore").isPrefixOf p1.1 then (p1.1.drop 4, p1.2 + 1) else p1
  let p3 : List Char × Nat :=
    if (String.toList "ly").isSuffixOf p2.1 then (dropSuffix 2 p2.1, p2.2 + 1) else p2
  let p4 : List Char × Nat :=
    if (String.toList "less").isSuffixOf p3.1 then (dropSuffix 4 p3.1, p3.2 + 1) else p3
  let p5 : List Char × Nat :=
    if (String.toList "ful").isSuffixOf p4.1 then (dropSuffix 3 p4.1, p4.2 + 1) else p4
  let p6 : List Char × Nat :=
    if (String.toList "ers").isSuffixOf p5.1 then (dropSuffix 3 p5.1, p5.2 + 1)
    else if (String.toList "er").isSuffixOf p5.1 then (dropSuffix 2 p5.1, p5.2 + 1)
    else p5
  let p7 : List Char × Nat :=
    if (String.toList "ings").isSuffixOf p6.1 then (dropSuffix 4 p6.1, p6.2 + 1)
    else if (String.toList "ing").isSuffixOf p6.1 then (dropSuffix 3 p6.1, p6.2 + 1)
    else p6
  p7

/-- Substring test (regex pattern with no anchors). -/
def containsPat (pat : List Char) : List Char → Bool
  | [] => pat.isEmpty
  | c :: r => pat.isPrefixOf (c :: r) || containsPat pat r

/-- `/[^aeiuoyt]{2,}ed$/`: ends in `ed` preceded by at least two
characters outside `aeiuoyt`. -/
def subConsEd (w : List Char) : Bool :=
  match w.reverse with
  | 'd' :: 'e' :: c1 :: c2 :: _ =>
    !(c1 = 'a' ∨ c1 = 'e' ∨ c1 = 'i' ∨ c1 = 'u' ∨ c1 = 'o' ∨ c1 = 'y' ∨ c1 = 't') &&
    !(c2 = 'a' ∨ c2 = 'e' ∨ c2 = 'i' ∨ c2 = 'u' ∨ c2 = 'o' ∨ c2 = 'y' ∨ c2 = 't')
  | _ => false

/-- `/.ely$/`: ends in `ely` with at least one character before (the
word is letters-only at test time, so `.` always matches). -/
def subEly (w : List Char) : Bool :=
  decide (4 ≤ w.length) && (String.toList "ely").isSuffixOf w

/-- Helper for `/[cg]h?e[rsd]?$/`: the reversed remainder after the
`e` must start with `c`, `g`, `hc` or `hg`. -/
def cghRev : List Char → Bool
  | 'c' :: _ => true
  | 'g' :: _ => true
  | 'h' :: 'c' :: _ => true
  | 'h' :: 'g' :: _ => true
  | _ => false

/-- `/[cg]h?e[rsd]?$/`. -/
def subChe (w : List Char) : Bool :=
  match w.reverse with
  | 'e' :: xs => cghRev xs
  | c :: 'e' :: xs => if c = 'r' ∨ c = 's' ∨ c = 'd' then cghRev xs else false
  | _ => false

/-- `/rved?$/`. -/
def subRve (w : List Char) : Bool :=
  (String.toList "rved").isSuffixOf w || (String.toList "rve").isSuffixOf w

/-- `/[aeiouy][dt]es?$/`. -/
def subVdte (w : List Char) : Bool :=
  match w.reverse with
  | 's' :: 'e' :: x :: v :: _ => (x = 'd' ∨ x = 't') && isVowelY v
  | 'e' :: x :: v :: _ => (x = 'd' ∨ x = 't') && isVowelY v
  | _ => false

/-- `/[aeiouy][^aeiouydt]e[rsd]?$/`. -/
def subVCe (w : List Char) : Bool :=
  match w.reverse with
  | 'e' :: c :: v :: _ => !isVowelY c && c ≠ 'd' && c ≠ 't' && isVowelY v
  | t :: 'e' :: c :: v :: _ =>
    (t = 'r' ∨ t = 's' ∨ t = 'd') && !isVowelY c && c ≠ 'd' && c ≠ 't' && isVowelY v
  | _ => false

/-- `/^[dr]e[aeiou][^aeiou]+$/` (whole word: deal, deign and alike). -/
def subDeal (w : List Char) : Bool :=
  match w with
  | a :: 'e' :: v :: rest =>
    (a = 'd' ∨ a = 'r') && isVowel5 v && !rest.isEmpty &&
    rest.all (fun c => !isVowel5 c)
  | _ => false

/-- `/[aeiouy]rse$/` (purse, hearse). -/
def subRse (w : List Char) : Bool :=
  match w.reverse with
  | 'e' :: 's' :: 'r' :: v :: _ => isVowelY v
  | _ => false

/-- `arrSubSyllables` as a list of decidable matchers, in source order. -/
def arrSubSyllables : List (List Char → Bool) :=
  [containsPat (String.toList "cial"),
   containsPat (String.toList "tia"),
   containsPat (String.toList "cius"),
   containsPat (String.toList "cious"),
   containsPat (String.toList "giu"),
   containsPat (String.toList "ion"),
   containsPat (String.toList "iou"),
   fun w => (String.toList "sia").isSuffixOf w,
   subConsEd,
   subEly,
   subChe,
   subRve,
   subVdte,
   subVCe,
   subDeal,
   subRse]

/-- `/[aeiouym]bl$/`. -/
def addBl (w : List Char) : Bool :=
  match w.reverse with
  | 'l' :: 'b' :: x :: _ => isVowelY x || x = 'm'
  | _ => false

/-- `/[aeiou]{3}/`: three consecutive `aeiou` vowels somewhere. -/
def addTriVowel : List Char → Bool
  | [] => false
  | c :: r =>
    (match r with
     | d :: e :: _ => isVowel5 c && isVowel5 d && isVowel5 e
     | _ => false) || addTriVowel r

/-- `/([^aeiouy])\1l$/`: doubled non-vowel then `l` at the end. -/
def addDblL (w : List Char) : Bool :=
  match w.reverse with
  | 'l' :: x :: y :: _ => x = y && !isVowelY x
  | _ => false

/-- `/[^l]lien/`. -/
def addLien : List Char → Bool
  | [] => false
  | c :: r => (c ≠ 'l' && (String.toList "lien").isPrefixOf r) || addLien r

/-- `/^coa[dglx]./`: `coa`, one of `dglx`, then any character. -/
def addCoa (w : List Char) : Bool :=
  match w with
  | 'c' :: 'o' :: 'a' :: x :: _ :: _ => x = 'd' ∨ x = 'g' ∨ x = 'l' ∨ x = 'x'
  | _ => false

/-- `/[^gq]ua[^auieo]/`. -/
def addUa : List Char → Bool
  | [] => false
  | c :: r =>
    (c ≠ 'g' && c ≠ 'q' &&
     (match r with
      | 'u' :: 'a' :: d :: _ => !(d = 'a' ∨ d = 'u' ∨ d = 'i' ∨ d = 'e' ∨ d = 'o')
      | _ => false)) || addUa r

/-- `arrAddSyllables` as a list of decidable matchers, in source order. -/
def arrAddSyllables : List (List Char → Bool) :=
  [containsPat (String.toList "ia"),
   containsPat (String.toList "riet"),
   containsPat (String.toList "dien"),
   containsPat (String.toList "iu"),
   containsPat (String.toList "io"),
   containsPat (String.toList "ii"),
   addBl,
   addTriVowel,
   fun w => (String.toList "mc").isPrefixOf w,
   fun w => (String.toList "ism").isSuffixOf w,
   addDblL,
   addLien,
   addCoa,
   addUa,
   fun w => (String.toList "dnt").isSuffixOf w,
   fun w => (String.toList "uity").isSuffixOf w,
   fun w => (String.toList "ier").isSuffixOf w || (String.toList "iest").isSuffixOf w]

/-- The pattern arithmetic of `syllable_count` before the final zero
check: affix stripping, non-letter removal, nucleus count plus affix
count, minus one per matching subtractive pattern, plus one per
matching additive pattern.  The input is the already lowercased word. -/
def syllable_count_arith (w : List Char) : Int :=
  let pref := affixStrip w
  let w2 := pref.1.filter isLowerAlpha
  let base : Int := (vowelGroups w2 : Int) + (pref.2 : Int)
  let afterSub : Int := base - (arrSubSyllables.countP (fun p => p w2) : Int)
  afterSub + (arrAddSyllables.countP (fun p => p w2) : Int)

/-- `syllable_count`: lowercase, short-circuit on the exception map,
otherwise run the pattern arithmetic; a final count of exactly zero is
replaced by one (the source tests `intSyllableCount == 0`). -/
def syllable_count (strWord : List Char) : Int :=
  let w := strWord.map asciiLower
  match List.lookup w arrProblemWords with
  | some n => (n : Int)
  | none =>
    let c := syllable_count_arith w
    if c = 0 then 1 else c

/-! ### Word-token functions -/

/-- `split(' ')` with a single-space separator: every occurrence splits,
so doubled separators produce empty tokens and the empty string yields
one empty token. -/
def splitSp : List Char → List (List Char)
  | [] => [[]]
  | c :: r =>
    match splitSp r with
    | t :: ts => if c = ' ' then [] :: t :: ts else (c :: t) :: ts
    | [] => [[]]

/-- `words_with_three_syllables`: the source overwrites the flag with
`true` on entry, cleans, splits on spaces, and counts tokens whose
syllable count exceeds 2; the proper-noun branch (dead code) excludes
tokens whose first character differs from its uppercased form. -/
def words_with_three_syllables (strText : List Char) (blnCountProperNouns : Bool) : Nat :=
  let blnCountProperNouns := true
  let cleaned := clean_text strText
  let arrWords := splitSp cleaned
  arrWords.countP (fun w =>
    2 < syllable_count w &&
    (blnCountProperNouns ||
     match w with
     | [] => false
     | c :: _ => c ≠ (if 'a' ≤ c ∧ c ≤ 'z' then Char.ofNat (c.toNat - 32) else c)))

/-! ### Readability formulas
JavaScript floating-point arithmetic is modelled by exact real
arithmetic; the formulas are transcribed term for term. -/

noncomputable section Formulas

/-- `average_words_per_sentence`: word count over sentence count. -/
def average_words_per_sentence (strText : List Char) : ℝ :=
  (word_count (clean_text strText) : ℝ) / (sentence_count (clean_text strText) : ℝ)

/-- `average_syllables_per_word`: sum of per-token syllable counts over
the word count. -/
def average_syllables_per_word (strText : List Char) : ℝ :=
  let cleaned := clean_text strText
  (((splitSp cleaned).map syllable_count).sum : ℝ) / (word_count cleaned : ℝ)

/-- `percentage_words_with_three_syllables` (the flag is overwritten
with `true` on entry, as in `words_with_three_syllables`). -/
def percentage_words_with_three_syllables (strText : List Char)
    (blnCountProperNouns : Bool) : ℝ :=
  let blnCountProperNouns := true
  let cleaned := clean_text strText
  ((words_with_three_syllables cleaned blnCountProperNouns : ℝ)
      / (word_count cleaned : ℝ)) * 100

/-- `flesch_kincaid_reading_ease`. -/
def flesch_kincaid_reading_ease (strText : List Char) : ℝ :=
  let cleaned := clean_text strText
  206.835 - (1.015 * average_words_per_sentence cleaned)
    - (84.6 * average_syllables_per_word cleaned)

/-- `flesch_kincaid_grade_level`. -/
def flesch_kincaid_grade_level (strText : List Char) : ℝ :=
  let cleaned := clean_text strText
  (0.39 * average_words_per_sentence cleaned)
    + (11.8 * average_syllables_per_word cleaned) - 15.59

/-- `gunning_fog_score`. -/
def gunning_fog_score (strText : List Char) : ℝ :=
  let cleaned := clean_text strText
  (average_words_per_sentence cleaned
    + percentage_words_with_three_syllables cleaned false) * 0.4

/-- `coleman_liau_index`. -/
def coleman_liau_index (strText : List Char) : ℝ :=
  let cleaned := clean_text strText
  (5.89 * ((letter_count cleaned : ℝ) / (word_count cleaned : ℝ)))
    - (0.3 * ((sentence_count cleaned : ℝ) / (word_count cleaned : ℝ))) - 15.8

/-- `smog_index`. -/
def smog_index (strText : List Char) : ℝ :=
  let cleaned := clean_text strText
  1.043 * Real.sqrt ((words_with_three_syllables cleaned true : ℝ)
      * (30 / (sentence_count cleaned : ℝ)) + 3.1291)

/-- `automated_readability_index`. -/
def automated_readability_index (strText : List Char) : ℝ :=
  let cleaned := clean_text strText
  (4.71 * ((letter_count cleaned : ℝ) / (word_count cleaned : ℝ)))
    + (0.5 * ((word_count cleaned : ℝ) / (sentence_count cleaned : ℝ))) - 21.43

/-- `average_grade_level`: the sum of the five grade formulas over 5. -/
def average_grade_level (strText : List Char) : ℝ :=
  (flesch_kincaid_grade_level strText + gunning_fog_score strText
    + coleman_liau_index strText + smog_index strText
    + automated_readability_index strText) / 5

/-- Arithmetic mean of a list of reals (the spec notion the average is
compared against). -/
def arithmeticMean (xs : List ℝ) : ℝ := xs.sum / (xs.length : ℝ)

end Formulas

/-! ### Invariant predicates on normalized text -/

/-- `noPair p s` holds when no two adjacent characters of `s` satisfy
the relation `p`. -/
def noPair (p : Char → Char → Bool) : List Char → Bool
  | [] => true
  | [_] => true
  | a :: b :: r => !p a b && noPair p (b :: r)

/-- Adjacent whitespace pair (forbidden in normalized text). -/
def wsPairP (a b : Char) : Bool := jsWs a && jsWs b

/-- A terminator not followed by a space (only allowed at the very
end of normalized text). -/
def dotNoSpP (a b : Char) : Bool := a = '.' && b ≠ ' '

/-- A space directly before a terminator (forbidden). -/
def spDotP (a b : Char) : Bool := a = ' ' && b = '.'

/-- A terminator followed by another terminator or a space, the shape
forbidden after the duplicate-terminator collapse. -/
def dotRunP (a b : Char) : Bool := a = '.' && (b = '.' || b = ' ')

/-- Characters eliminated by the punctuation and terminator maps. -/
def bannedChar (c : Char) : Bool :=
  c = ',' ∨ c = ':' ∨ c = ';' ∨ c = '(' ∨ c = ')' ∨ c = '-' ∨ c = '!' ∨ c = '?'

/-- No `'>'` occurs in the list. -/
def gtFree (s : List Char) : Bool := s.all (fun c => c ≠ '>')

/-- Every `'<'` is either immediately followed by `'>'` or has no
`'>'` anywhere after it: under this condition the tag regex and the
closing-tag string search can never match. -/
def ltOk : List Char → Bool
  | [] => true
  | c :: r =>
    (!(c = '<') || (match r with
      | d :: _ => d = '>' || gtFree r
      | [] => true)) && ltOk r

/-- Remove the single space that follows each terminator (the effect of
the duplicate-terminator collapse on already-normalized text). -/
def dropDotSpace : List Char → List Char
  | '.' :: ' ' :: r => '.' :: dropDotSpace r
  | c :: r => c :: dropDotSpace r
  | [] => []

/-- Insert a space after each terminator (the effect of the padding
step on text with no space before or after any terminator). -/
def addDotSpace : List Char → List Char
  | '.' :: r => '.' :: ' ' :: addDotSpace r
  | c :: r => c :: addDotSpace r
  | [] => []

/-! ### Helper lemmas -/

/-- The exception map only stores the values 3, 3 and 2. -/
theorem lookup_arrProblemWords {w : List Char} {n : Nat}
    (h : List.lookup w arrProblemWords = some n) : n = 3 ∨ n = 2 := by
  simp only [arrProblemWords, List.lookup] at h
  split at h
  · exact Or.inl (by simpa using h.symm)
  · split at h
    · exact Or.inl (by simpa using h.symm)
    · split at h
      · exact Or.inr (by simpa using h.symm)
      · simp at h

/-- A terminator in the input to `nlStep` survives it (the newline
replacement deletes only spaces and line breaks). -/
theorem dot_mem_nlAux (p : Nat) (b : Bool) (s : List Char) (h : '.' ∈ s) :
    '.' ∈ nlAux p b s := by
  induction p, b, s using nlAux.induct with
  | case1 p b => cases h
  | case2 p b r ih =>
    simp only [nlAux]
    have : '.' ∈ r := by simpa using h
    simp [ih this]
  | case3 p b r ih =>
    simp only [nlAux]
    have : '.' ∈ r := by simpa using h
    simp [ih this]
  | case4 p b r hne ih =>
    simp only [nlAux]
    have : '.' ∈ r := by simpa using h
    simp [ih this]
  | case5 p r h1 h2 h3 ih =>
    simp only [nlAux]
    have : '.' ∈ r := by simpa using h
    simp [ih this]
  | case6 p b r hb h1 h2 h3 ih =>
    simp only [nlAux]
    have : '.' ∈ r := by simpa using h
    simp [hb, ih this]
  | case7 p b c r h1 h2 h3 hc ih =>
    simp only [nlAux, if_neg hc]
    rcases List.mem_cons.1 h with h | h
    · subst h
      exact List.mem_append_right _ (List.mem_cons_self _ _)
    · exact List.mem_append_right _ (List.mem_cons_of_mem _ (ih h))

/-- A terminator survives the duplicate-terminator collapse when the
scanner is not mid-absorption. -/
theorem dot_mem_dedupAux (s : List Char) (h : '.' ∈ s) :
    '.' ∈ dedupAux false s := by
  induction s with
  | nil => cases h
  | cons c r ih =>
    by_cases hc : c = '.'
    · subst hc; simp [dedupAux]
    · simp only [dedupAux, Bool.false_eq_true, if_false, if_neg hc]
      rcases List.mem_cons.1 h with h | h
      · exact absurd h.symm hc
      · simp [ih h]

/-- A terminator survives the terminator-padding step. -/
theorem dot_mem_padAux (p : Nat) (s : List Char) (h : '.' ∈ s) :
    '.' ∈ padAux p s := by
  induction p, s using padAux.induct with
  | case1 p => cases h
  | case2 p r ih =>
    simp only [padAux]
    have : '.' ∈ r := by simpa using h
    simp [ih this]
  | case3 p r hne ih =>
    simp [padAux]
  | case4 p c r hc hdot ih =>
    simp only [padAux, if_neg hc, if_neg hdot]
    have : '.' ∈ r := by
      rcases List.mem_cons.1 h with h | h
      · exact absurd h.symm hdot
      · exact h
    exact List.mem_append_right _ (List.mem_cons_of_mem _ (ih this))

/-- A non-whitespace character survives the trim regex. -/
theorem mem_trimAux (b : Bool) (acc s : List Char) {x : Char}
    (hx : ¬ jsWs x = true) (h : x ∈ s) : x ∈ trimAux b acc s := by
  induction b, acc, s using trimAux.induct with
  | case1 b acc => cases h
  | case2 b acc c r hc ih =>
    simp only [trimAux, if_pos hc]
    have : x ∈ r := by
      rcases List.mem_cons.1 h with h | h
      · exact absurd (h ▸ hc) hx
      · exact h
    exact ih this
  | case3 b acc c r hc ih =>
    simp only [trimAux, if_neg hc]
    rcases List.mem_cons.1 h with h | h
    · subst h; exact List.mem_append_right _ (List.mem_cons_self _ _)
    · exact List.mem_append_right _ (List.mem_cons_of_mem _ (ih h))

/-- A non-whitespace character survives whitespace collapsing. -/
theorem mem_cwAux (b : Bool) (s : List Char) {x : Char}
    (hx : ¬ jsWs x = true) (h : x ∈ s) : x ∈ cwAux b s := by
  induction b, s using cwAux.induct with
  | case1 b => cases h
  | case2 c r hc ih =>
    have : x ∈ r := by
      rcases List.mem_cons.1 h with h | h
      · exact absurd (h ▸ hc) hx
      · exact h
    simp [cwAux, hc, ih this]
  | case3 b c r hc hb ih =>
    have : x ∈ r := by
      rcases List.mem_cons.1 h with h | h
      · exact absurd (h ▸ hc) hx
      · exact h
    simp [cwAux, hc, hb, ih this]
  | case4 b c r hc ih =>
    simp only [cwAux, if_neg hc]
    rcases List.mem_cons.1 h with h | h
    · simp [h]
    · simp [ih h]

/-- A non-space character survives space collapsing. -/
theorem mem_spAux (b : Bool) (s : List Char) {x : Char}
    (hx : ¬ x = ' ') (h : x ∈ s) : x ∈ spAux b s := by
  induction b, s using spAux.induct with
  | case1 b => cases h
  | case2 r ih =>
    have : x ∈ r := by
      rcases List.mem_cons.1 h with h | h
      · exact absurd h hx
      · exact h
    simp [spAux, ih this]
  | case3 b r hb ih =>
    have : x ∈ r := by
      rcases List.mem_cons.1 h with h | h
      · exact absurd h hx
      · exact h
    simp [spAux, hb, ih this]
  | case4 b c r hc ih =>
    simp only [spAux, if_neg hc]
    rcases List.mem_cons.1 h with h | h
    · simp [h]
    · simp [ih h]

/-- The cleaned text always contains a terminator: one is appended
before the duplicate collapse, and the later steps delete only
whitespace and characters following a kept terminator. -/
theorem dot_mem_clean_text (t : List Char) : '.' ∈ clean_text t := by
  unfold clean_text
  simp only
  have hdotws : ¬ jsWs '.' = true := by decide
  have h5 : '.' ∈ collapseWs (trimRegex ((stripTags (fullStopTagsStep t)).map
      punctToSpace |>.map unifyTerm)) ++ ['.'] := by simp
  have h6 := dot_mem_nlAux 0 false _ h5
  have h7 := dot_mem_dedupAux _ h6
  have h8 := dot_mem_padAux 0 _ h7
  have h9 := mem_trimAux true [] _ hdotws h8
  have h10 := mem_cwAux false _ hdotws h9
  have h11 := mem_spAux false _ (by decide) h10
  have : asciiLower '.' = '.' := by decide
  exact this ▸ List.mem_map_of_mem asciiLower h11

/-! ### Character-level facts -/

/-- `Char.ofNat` below the surrogate range round-trips through
`toNat`. -/
theorem toNat_ofNat_lt {n : Nat} (h : n < 0xd800) : (Char.ofNat n).toNat = n := by
  have hv : n.isValidChar := Or.inl h
  simp [Char.ofNat, hv, Char.toNat, Char.ofNatAux, UInt32.toNat]

/-- Characters are equal iff their code points are. -/
theorem char_eq_iff_toNat {c d : Char} : c = d ↔ c.toNat = d.toNat := by
  constructor
  · intro h; rw [h]
  · intro h
    exact Char.ext (UInt32.ext h)

/-- `jsWs` as a predicate on code points. -/
theorem jsWs_iff_toNat {c : Char} : jsWs c = true ↔
    (c.toNat = 0x20 ∨ c.toNat = 0x9 ∨ c.toNat = 0xa ∨ c.toNat = 0xd ∨
     c.toNat = 0xb ∨ c.toNat = 0xc ∨ c.toNat = 0xa0 ∨ c.toNat = 0x1680 ∨
     (0x2000 ≤ c.toNat ∧ c.toNat ≤ 0x200a) ∨ c.toNat = 0x2028 ∨
     c.toNat = 0x2029 ∨ c.toNat = 0x202f ∨ c.toNat = 0x205f ∨
     c.toNat = 0x3000 ∨ c.toNat = 0xfeff) := by
  have h1 : (' ' : Char).toNat = 0x20 := rfl
  have h2 : ('\t' : Char).toNat = 0x9 := rfl
  have h3 : ('\n' : Char).toNat = 0xa := rfl
  have h4 : ('\r' : Char).toNat = 0xd := rfl
  have h5 : ('\x0b' : Char).toNat = 0xb := rfl
  have h6 : ('\x0c' : Char).toNat = 0xc := rfl
  simp only [jsWs, char_eq_iff_toNat, h1, h2, h3, h4, h5, h6, decide_eq_true_eq]

/-- Code point of the lowercased character. -/
theorem asciiLower_toNat (c : Char) :
    (asciiLower c).toNat =
      if 0x41 ≤ c.toNat ∧ c.toNat ≤ 0x5a then c.toNat + 32 else c.toNat := by
  unfold asciiLower
  split
  · next h => exact toNat_ofNat_lt (by omega)
  · rfl

/-- Lowercasing does not change whitespace status. -/
theorem jsWs_asciiLower (c : Char) : jsWs (asciiLower c) = jsWs c := by
  by_cases h : 0x41 ≤ c.toNat ∧ c.toNat ≤ 0x5a
  · have h1 : (asciiLower c).toNat = c.toNat + 32 := by rw [asciiLower_toNat]; simp [h]
    have ha : jsWs (asciiLower c) = false := by
      rw [← Bool.not_eq_true, jsWs_iff_toNat]
      omega
    have hb : jsWs c = false := by
      rw [← Bool.not_eq_true, jsWs_iff_toNat]
      omega
    rw [ha, hb]
  · unfold asciiLower
    rw [if_neg h]

/-- Lowercasing reflects equality with any character below `'A'`
(in particular `'.'`, `' '`, `'<'` and `'>'`). -/
theorem asciiLower_eq_iff {c d : Char} (hd : d.toNat < 0x41) :
    asciiLower c = d ↔ c = d := by
  rw [char_eq_iff_toNat, char_eq_iff_toNat (c := c), asciiLower_toNat]
  split
  · next h => omega
  · exact Iff.rfl

/-- ASCII lowercasing is idempotent. -/
theorem asciiLower_idem (c : Char) : asciiLower (asciiLower c) = asciiLower c := by
  rw [char_eq_iff_toNat]
  rw [asciiLower_toNat (asciiLower c)]
  rw [asciiLower_toNat c]
  split
  · next h =>
    split
    · next h2 => omega
    · rfl
  · next h => rfl

/-- A lowercased character is never an uppercase ASCII letter. -/
theorem asciiLower_not_upper (c : Char) :
    ¬ (0x41 ≤ (asciiLower c).toNat ∧ (asciiLower c).toNat ≤ 0x5a) := by
  rw [asciiLower_toNat]
  split <;> omega

/-! ### Facts about adjacent-pair conditions -/

/-- `noPair` on a tail. -/
theorem noPair_tail {p : Char → Char → Bool} {a : Char} {r : List Char}
    (h : noPair p (a :: r) = true) : noPair p r = true := by
  cases r with
  | nil => rfl
  | cons b r' =>
    simp only [noPair, Bool.and_eq_true] at h
    exact h.2

/-- The head pair of a `noPair` list fails the condition. -/
theorem noPair_head {p : Char → Char → Bool} {a b : Char} {r : List Char}
    (h : noPair p (a :: b :: r) = true) : p a b = false := by
  simp only [noPair, Bool.and_eq_true, Bool.not_eq_eq_eq_not, Bool.not_true] at h
  simpa using h.1

/-- Build `noPair` on a cons cell. -/
theorem noPair_cons {p : Char → Char → Bool} {a : Char} {r : List Char}
    (hr : noPair p r = true)
    (h : ∀ b r', r = b :: r' → p a b = false) : noPair p (a :: r) = true := by
  cases r with
  | nil => rfl
  | cons b r' =>
    simp only [noPair, Bool.and_eq_true]
    exact ⟨by simp [h b r' rfl], hr⟩

/-- `noPair` of a prefix. -/
theorem noPair_append_left {p : Char → Char → Bool} :
    ∀ {s t : List Char}, noPair p (s ++ t) = true → noPair p s = true := by
  intro s
  induction s with
  | nil => intro t _; rfl
  | cons a r ih =>
    intro t h
    cases r with
    | nil => rfl
    | cons b r' =>
      have h1 : p a b = false := noPair_head h
      have h2 : noPair p (b :: r') = true := ih (noPair_tail h)
      exact noPair_cons h2 (fun b' r'' he => by cases he; exact h1)

/-- Append one character that can never be the right half of a bad
pair. -/
theorem noPair_append_singleton {p : Char → Char → Bool} {c : Char}
    (hc : ∀ a, p a c = false) :
    ∀ {s : List Char}, noPair p s = true → noPair p (s ++ [c]) = true := by
  intro s
  induction s with
  | nil => intro _; rfl
  | cons a r ih =>
    intro h
    have h2 := ih (noPair_tail h)
    cases r with
    | nil =>
      simp [noPair, hc a]
    | cons b r' =>
      simp only [List.cons_append, noPair, Bool.and_eq_true]
      refine ⟨by simp [noPair_head h], ?_⟩
      simpa using h2

/-- Transfer `noPair` across a character map that preserves the
condition. -/
theorem noPair_map {p : Char → Char → Bool} {f : Char → Char}
    (hf : ∀ a b, p (f a) (f b) = p a b) :
    ∀ {s : List Char}, noPair p s = true → noPair p (s.map f) = true := by
  intro s
  induction s with
  | nil => intro _; rfl
  | cons a r ih =>
    intro h
    have h2 := ih (noPair_tail h)
    cases r with
    | nil => rfl
    | cons b r' =>
      simp only [List.map_cons, noPair, Bool.and_eq_true]
      refine ⟨by simp [hf a b, noPair_head h], ?_⟩
      simpa using h2

/-! ### Per-stage structural lemmas -/

/-- Whitespace collapsing only outputs input characters or spaces. -/
theorem mem_cwAux_sub {x : Char} : ∀ (b : Bool) (s : List Char),
    x ∈ cwAux b s → x ∈ s ∨ x = ' ' := by
  intro b s
  induction b, s using cwAux.induct with
  | case1 b => intro h; cases h
  | case2 c r hc ih =>
    intro h
    simp only [cwAux, if_pos hc, if_true] at h
    rcases ih h with h | h
    · exact Or.inl (List.mem_cons_of_mem _ h)
    · exact Or.inr h
  | case3 b c r hc hb ih =>
    intro h
    simp only [cwAux, if_pos hc, if_neg hb] at h
    rcases List.mem_cons.1 h with h | h
    · exact Or.inr h
    · rcases ih h with h | h
      · exact Or.inl (List.mem_cons_of_mem _ h)
      · exact Or.inr h
  | case4 b c r hc ih =>
    intro h
    simp only [cwAux, if_neg hc] at h
    rcases List.mem_cons.1 h with h | h
    · exact Or.inl (h ▸ List.mem_cons_self _ _)
    · rcases ih h with h | h
      · exact Or.inl (List.mem_cons_of_mem _ h)
      · exact Or.inr h

/-- Space collapsing only outputs input characters or spaces. -/
theorem mem_spAux_sub {x : Char} : ∀ (b : Bool) (s : List Char),
    x ∈ spAux b s → x ∈ s ∨ x = ' ' := by
  intro b s
  induction b, s using spAux.induct with
  | case1 b => intro h; cases h
  | case2 r ih =>
    intro h
    rcases ih h with h | h
    · exact Or.inl (List.mem_cons_of_mem _ h)
    · exact Or.inr h
  | case3 b r hb ih =>
    intro h
    simp only [spAux, if_pos rfl, if_neg hb] at h
    rcases List.mem_cons.1 h with h | h
    · exact Or.inr h
    · rcases ih h with h | h
      · exact Or.inl (List.mem_cons_of_mem _ h)
      · exact Or.inr h
  | case4 b c r hc ih =>
    intro h
    simp only [spAux, if_neg hc] at h
    rcases List.mem_cons.1 h with h | h
    · exact Or.inl (h ▸ List.mem_cons_self _ _)
    · rcases ih h with h | h
      · exact Or.inl (List.mem_cons_of_mem _ h)
      · exact Or.inr h

/-- The duplicate-terminator collapse only deletes characters. -/
theorem mem_dedupAux_sub {x : Char} : ∀ (b : Bool) (s : List Char),
    x ∈ dedupAux b s → x ∈ s := by
  intro b s
  induction s generalizing b with
  | nil => intro h; cases h
  | cons c r ih =>
    intro h
    by_cases hb : b
    · subst hb
      by_cases hc : c = '.' ∨ c = ' '
      · simp only [dedupAux, if_pos rfl, if_pos hc] at h
        exact List.mem_cons_of_mem _ (ih true h)
      · simp only [dedupAux, if_pos rfl, if_neg hc] at h
        rcases List.mem_cons.1 h with h | h
        · exact h ▸ List.mem_cons_self _ _
        · exact List.mem_cons_of_mem _ (ih false h)
    · simp only [Bool.not_eq_true] at hb
      subst hb
      by_cases hc : c = '.'
      · subst hc
        simp only [dedupAux, Bool.false_eq_true, if_false, if_pos rfl] at h
        rcases List.mem_cons.1 h with h | h
        · exact h ▸ List.mem_cons_self _ _
        · exact List.mem_cons_of_mem _ (ih true h)
      · simp only [dedupAux, Bool.false_eq_true, if_false, if_neg hc] at h
        rcases List.mem_cons.1 h with h | h
        · exact h ▸ List.mem_cons_self _ _
        · exact List.mem_cons_of_mem _ (ih false h)

/-- Padding only outputs input characters or spaces. -/
theorem mem_padAux_sub {x : Char} : ∀ (p : Nat) (s : List Char),
    x ∈ padAux p s → x ∈ s ∨ x = ' ' := by
  intro p s
  induction p, s using padAux.induct with
  | case1 p =>
    intro h
    exact Or.inr (List.eq_of_mem_replicate h)
  | case2 p r ih =>
    intro h
    rcases ih h with h | h
    · exact Or.inl (List.mem_cons_of_mem _ h)
    · exact Or.inr h
  | case3 p r hne ih =>
    intro h
    simp only [padAux] at h
    rcases List.mem_cons.1 h with h | h
    · exact Or.inl (h ▸ List.mem_cons_self _ _)
    · rcases List.mem_cons.1 h with h | h
      · exact Or.inr h
      · rcases ih h with h | h
        · exact Or.inl (List.mem_cons_of_mem _ h)
        · exact Or.inr h
  | case4 p c r hsp hdot ih =>
    intro h
    simp only [padAux, if_neg hsp, if_neg hdot] at h
    rcases List.mem_append.1 h with h | h
    · exact Or.inr (List.eq_of_mem_replicate h)
    · rcases List.mem_cons.1 h with h | h
      · exact Or.inl (h ▸ List.mem_cons_self _ _)
      · rcases ih h with h | h
        · exact Or.inl (List.mem_cons_of_mem _ h)
        · exact Or.inr h

/-- A flushed whitespace run is a subset of the run. -/
theorem mem_trimWsRun_sub {x : Char} {a e : Bool} {run : List Char}
    (h : x ∈ trimWsRun a e run) : x ∈ run := by
  unfold trimWsRun at h
  split at h
  · cases h
  · split at h
    · cases h
    · split at h
      · cases h
      · split at h
        · next rest _ =>
          split at h
          · next hr =>
            subst hr
            simpa using h
          · cases h
        · split at h
          · next =>
            unfold afterLastNl at h
            have h2 := List.mem_reverse.1 h
            have h3 := List.takeWhile_prefix (l := run.reverse)
              (p := fun c => c ≠ '\n')
            have h4 := h3.subset h2
            exact List.mem_reverse.1 h4
          · exact h

/-- The trim regex only outputs characters of the accumulated run or
of the remaining input. -/
theorem mem_trimAux_sub {x : Char} : ∀ (b : Bool) (acc s : List Char),
    x ∈ trimAux b acc s → x ∈ acc ∨ x ∈ s := by
  intro b acc s
  induction b, acc, s using trimAux.induct with
  | case1 b acc =>
    intro h
    exact Or.inl (mem_trimWsRun_sub h)
  | case2 b acc c r hc ih =>
    intro h
    simp only [trimAux, if_pos hc] at h
    rcases ih h with h | h
    · rcases List.mem_append.1 h with h | h
      · exact Or.inl h
      · simp only [List.mem_singleton] at h
        exact Or.inr (h ▸ List.mem_cons_self _ _)
    · exact Or.inr (List.mem_cons_of_mem _ h)
  | case3 b acc c r hc ih =>
    intro h
    simp only [trimAux, if_neg hc] at h
    rcases List.mem_append.1 h with h | h
    · exact Or.inl (mem_trimWsRun_sub h)
    · rcases List.mem_cons.1 h with h | h
      · exact Or.inr (h ▸ List.mem_cons_self _ _)
      · rcases ih h with h | h
        · cases h
        · exact Or.inr (List.mem_cons_of_mem _ h)

/-- Any whitespace character emitted by whitespace collapsing is a
space. -/
theorem cwAux_ws_space {x : Char} : ∀ (b : Bool) (s : List Char),
    x ∈ cwAux b s → jsWs x = true → x = ' ' := by
  intro b s
  induction b, s using cwAux.induct with
  | case1 b => intro h; cases h
  | case2 c r hc ih =>
    intro h hx
    simp only [cwAux, if_pos hc, if_true] at h
    exact ih h hx
  | case3 b c r hc hb ih =>
    intro h hx
    simp only [cwAux, if_pos hc, if_neg hb] at h
    rcases List.mem_cons.1 h with h | h
    · exact h
    · exact ih h hx
  | case4 b c r hc ih =>
    intro h hx
    simp only [cwAux, if_neg hc] at h
    rcases List.mem_cons.1 h with h | h
    · exact absurd (h ▸ hx) hc
    · exact ih h hx

/-- On input free of carriage returns and line feeds, the newline
replacement emits its pending spaces and the input unchanged. -/
theorem nlAux_no_break (p : Nat) (s : List Char)
    (h : ∀ c ∈ s, c ≠ '\n' ∧ c ≠ '\r') :
    nlAux p false s = List.replicate p ' ' ++ s := by
  induction s generalizing p with
  | nil => simp [nlAux]
  | cons c r ih =>
    have hc := h c (List.mem_cons_self _ _)
    have hr : ∀ x ∈ r, x ≠ '\n' ∧ x ≠ '\r' :=
      fun x hx => h x (List.mem_cons_of_mem _ hx)
    by_cases hsp : c = ' '
    · subst hsp
      have h1 : nlAux p false (' ' :: r) = nlAux (p + 1) false r := by
        simp [nlAux]
      rw [h1, ih (p + 1) hr]
      simp [List.replicate_succ']
    · have h1 : nlAux p false (c :: r) =
          List.replicate p ' ' ++ c :: nlAux 0 false r := by
        rcases r with _ | ⟨d, r'⟩
        · simp [nlAux, hc.1, hc.2, hsp]
        · by_cases hd : d = '\n'
          · subst hd
            simp [nlAux, hc.1, hc.2, hsp]
          · simp [nlAux, hc.1, hc.2, hsp, hd]
      rw [h1, ih 0 hr]
      simp

/-- `nlStep` is the identity on break-free text. -/
theorem nlStep_id (s : List Char) (h : ∀ c ∈ s, c ≠ '\n' ∧ c ≠ '\r') :
    nlStep s = s := by
  unfold nlStep
  rw [nlAux_no_break 0 s h]
  rfl

/-- The duplicate-terminator collapse keeps the head character when
not absorbing. -/
theorem dedupAux_false_head (s : List Char) :
    (dedupAux false s).head? = s.head? := by
  cases s with
  | nil => rfl
  | cons c r =>
    by_cases hc : c = '.'
    · subst hc; simp [dedupAux]
    · simp [dedupAux, hc]

/-- While absorbing, the first emitted character is outside the
absorbed class. -/
theorem dedupAux_true_head {d : Char} : ∀ (s : List Char),
    (dedupAux true s).head? = some d → ¬ (d = '.' ∨ d = ' ') := by
  intro s
  induction s with
  | nil => intro h; cases h
  | cons c r ih =>
    intro h
    by_cases hc : c = '.' ∨ c = ' '
    · simp only [dedupAux, if_pos rfl, if_pos hc] at h
      exact ih h
    · have he : dedupAux true (c :: r) = c :: dedupAux false r := by
        simp [dedupAux, hc]
      rw [he] at h
      simp only [List.head?_cons, Option.some_inj] at h
      exact h ▸ hc

/-- After the duplicate-terminator collapse no terminator is followed
by a terminator or a space. -/
theorem dedupAux_dotRun : ∀ (b : Bool) (s : List Char),
    noPair dotRunP (dedupAux b s) = true := by
  intro b s
  induction s generalizing b with
  | nil => cases b <;> rfl
  | cons c r ih =>
    by_cases hb : b
    · subst hb
      by_cases hc : c = '.' ∨ c = ' '
      · simpa only [dedupAux, if_pos rfl, if_pos hc] using ih true
      · simp only [dedupAux, if_pos rfl, if_neg hc]
        refine noPair_cons (ih false) ?_
        intro e r' he
        have hhead : (dedupAux false r).head? = some e := by rw [he]; rfl
        rw [dedupAux_false_head] at hhead
        by_cases hcdot : c = '.'
        · exact absurd (Or.inl hcdot) hc
        · simp [dotRunP, hcdot]
    · simp only [Bool.not_eq_true] at hb
      subst hb
      by_cases hc : c = '.'
      · subst hc
        simp only [dedupAux, Bool.false_eq_true, if_false, if_pos rfl]
        refine noPair_cons (ih true) ?_
        intro e r' he
        have hhead : (dedupAux true r).head? = some e := by rw [he]; rfl
        have := dedupAux_true_head r hhead
        simp only [dotRunP]
        rcases Decidable.em (e = '.') with h1 | h1
        · exact absurd (Or.inl h1) this
        · rcases Decidable.em (e = ' ') with h2 | h2
          · exact absurd (Or.inr h2) this
          · simp [h1, h2]
      · simp only [dedupAux, Bool.false_eq_true, if_false, if_neg hc]
        refine noPair_cons (ih false) ?_
        intro e r' he
        simp [dotRunP, hc]

/-- The duplicate-terminator collapse preserves the absence of
adjacent whitespace (on text whose whitespace is all spaces). -/
theorem dedupAux_wsPair : ∀ (b : Bool) (s : List Char)
    (hws : ∀ c ∈ s, jsWs c = true → c = ' ')
    (hnp : noPair wsPairP s = true),
    noPair wsPairP (dedupAux b s) = true := by
  intro b s
  induction s generalizing b with
  | nil => intro _ _; cases b <;> rfl
  | cons c r ih =>
    intro hws hnp
    have hwr : ∀ x ∈ r, jsWs x = true → x = ' ' :=
      fun x hx => hws x (List.mem_cons_of_mem _ hx)
    have hnr : noPair wsPairP r = true := noPair_tail hnp
    by_cases hb : b
    · subst hb
      by_cases hc : c = '.' ∨ c = ' '
      · simpa only [dedupAux, if_pos rfl, if_pos hc] using ih true hwr hnr
      · simp only [dedupAux, if_pos rfl, if_neg hc]
        refine noPair_cons (ih false hwr hnr) ?_
        intro e r' he
        have hcns : jsWs c = false := by
          rcases Decidable.em (jsWs c = true) with h1 | h1
          · exact absurd (Or.inr (hws c (List.mem_cons_self _ _) h1)) hc
          · simpa using h1
        simp [wsPairP, hcns]
    · simp only [Bool.not_eq_true] at hb
      subst hb
      by_cases hc : c = '.'
      · subst hc
        simp only [dedupAux, Bool.false_eq_true, if_false, if_pos rfl]
        refine noPair_cons (ih true hwr hnr) ?_
        intro e r' he
        simp [wsPairP, show jsWs '.' = false by decide]
      · simp only [dedupAux, Bool.false_eq_true, if_false, if_neg hc]
        refine noPair_cons (ih false hwr hnr) ?_
        intro e r' he
        have hhead : (dedupAux false r).head? = some e := by rw [he]; rfl
        rw [dedupAux_false_head] at hhead
        rcases r with _ | ⟨d, r''⟩
        · cases hhead
        · simp only [List.head?_cons, Option.some_inj] at hhead
          subst hhead
          have := noPair_head hnp
          simpa [wsPairP] using this

/-- Cons on a nonempty list keeps its last element. -/
theorem getLast?_cons_ne_nil {c : Char} {l : List Char} (h : l ≠ []) :
    (c :: l).getLast? = l.getLast? := by
  cases l with
  | nil => exact absurd rfl h
  | cons d r => exact List.getLast?_cons_cons

/-- The duplicate-terminator collapse preserves a terminator in final
position. -/
theorem dedupAux_endsDot : ∀ (s : List Char),
    s.getLast? = some '.' →
    (dedupAux true s = [] ∨ (dedupAux true s).getLast? = some '.') ∧
    (dedupAux false s).getLast? = some '.' := by
  intro s
  induction s with
  | nil => intro h; cases h
  | cons c r ih =>
    intro h
    rcases r with _ | ⟨d, r'⟩
    · simp only [List.getLast?_singleton, Option.some_inj] at h
      subst h
      exact ⟨Or.inl rfl, rfl⟩
    · have hr : (d :: r').getLast? = some '.' := by
        rw [List.getLast?_cons_cons] at h
        exact h
      have ihr := ih hr
      have hne : dedupAux false (d :: r') ≠ [] := by
        intro hb
        by_cases hd : d = '.'
        · subst hd
          simp [dedupAux] at hb
        · simp [dedupAux, hd] at hb
      constructor
      · by_cases hc : c = '.' ∨ c = ' '
        · have he : dedupAux true (c :: d :: r') = dedupAux true (d :: r') := by
            simp [dedupAux, hc]
          rw [he]
          exact ihr.1
        · have he : dedupAux true (c :: d :: r') = c :: dedupAux false (d :: r') := by
            simp [dedupAux, hc]
          rw [he, getLast?_cons_ne_nil hne]
          exact Or.inr ihr.2
      · by_cases hc : c = '.'
        · subst hc
          have he : dedupAux false ('.' :: d :: r') = '.' :: dedupAux true (d :: r') := by
            simp [dedupAux]
          rw [he]
          rcases ihr.1 with h1 | h1
          · rw [h1]
            rfl
          · rcases he2 : dedupAux true (d :: r') with _ | ⟨e, t⟩
            · rfl
            · rw [getLast?_cons_ne_nil (by simp [he2])]
              rw [he2] at h1
              exact h1
        · have he : dedupAux false (c :: d :: r') = c :: dedupAux false (d :: r') := by
            simp [dedupAux, hc]
          rw [he, getLast?_cons_ne_nil hne]
          exact ihr.2

/-- Padding keeps a head character that is neither space nor
terminator. -/
theorem padAux_head_keep {e : Char} {r : List Char}
    (h : r.head? = some e) (h1 : ¬ e = ' ') (h2 : ¬ e = '.') :
    (padAux 0 r).head? = some e := by
  cases r with
  | nil => cases h
  | cons c r' =>
    simp only [List.head?_cons, Option.some_inj] at h
    subst h
    simp [padAux, h1, h2]

/-- After padding: no adjacent whitespace, every terminator is
followed by a space, and no space precedes a terminator.  The `pending`
parameter is constrained as in the scan of well-formed text: at most
one space is pending, and only when the next character is not another
space. -/
theorem padAux_pairs : ∀ (p : Nat) (s : List Char),
    (∀ c ∈ s, jsWs c = true → c = ' ') →
    noPair wsPairP s = true →
    noPair dotRunP s = true →
    p ≤ 1 →
    (p = 1 → s.head? ≠ some ' ') →
    noPair wsPairP (padAux p s) = true ∧
    noPair dotNoSpP (padAux p s) = true ∧
    noPair spDotP (padAux p s) = true := by
  intro p s
  induction p, s using padAux.induct with
  | case1 p =>
    intro _ _ _ hp _
    interval_cases p
    · exact ⟨rfl, rfl, rfl⟩
    · exact ⟨rfl, rfl, rfl⟩
  | case2 p r ih =>
    intro hws hnp hdr hp hp1
    have hp0 : p = 0 := by
      rcases Nat.lt_or_ge p 1 with h | h
      · omega
      · exfalso
        exact hp1 (by omega) (by simp)
    subst hp0
    have hr1 : (1 : Nat) = 1 → r.head? ≠ some ' ' := by
      intro _
      cases r with
      | nil => simp
      | cons e r' =>
        have := noPair_head hnp
        simp only [wsPairP, Bool.and_eq_true] at this
        intro hcon
        simp only [List.head?_cons, Option.some_inj] at hcon
        subst hcon
        simp [show jsWs ' ' = true by decide] at this
    have := ih (fun c hc => hws c (List.mem_cons_of_mem _ hc))
      (noPair_tail hnp) (noPair_tail hdr) (by omega) hr1
    simpa [padAux] using this
  | case3 p r hne ih =>
    intro hws hnp hdr hp hp1
    have hwr : ∀ c ∈ r, jsWs c = true → c = ' ' :=
      fun c hc => hws c (List.mem_cons_of_mem _ hc)
    have ihr := ih hwr (noPair_tail hnp) (noPair_tail hdr) (by omega) (by simp)
    have hout : padAux p ('.' :: r) = '.' :: ' ' :: padAux 0 r := by
      simp [padAux]
    rw [hout]
    have hhead : ∀ e t, padAux 0 r = e :: t →
        ¬ e = ' ' ∧ ¬ e = '.' ∧ jsWs e = false := by
      intro e t he
      cases r with
      | nil => cases he.symm.trans rfl
      | cons d r' =>
        have hd := noPair_head hdr
        simp only [dotRunP, Bool.and_eq_true] at hd
        have hd1 : ¬ d = '.' ∧ ¬ d = ' ' := by
          rcases Decidable.em (d = '.') with h1 | h1
          · simp [h1] at hd
          · rcases Decidable.em (d = ' ') with h2 | h2
            · simp [h1, h2] at hd
            · exact ⟨h1, h2⟩
        have hkeep := padAux_head_keep (r := d :: r') rfl hd1.2 hd1.1
        rw [he] at hkeep
        simp only [List.head?_cons, Option.some_inj] at hkeep
        subst hkeep
        refine ⟨hd1.2, hd1.1, ?_⟩
        rcases Decidable.em (jsWs e = true) with h1 | h1
        · exact absurd (hwr e (List.mem_cons_self _ _) h1) hd1.2
        · simpa using h1
    refine ⟨?_, ?_, ?_⟩
    · refine noPair_cons ?_ ?_
      · refine noPair_cons ihr.1 ?_
        intro e t he
        have := (hhead e t he).2.2
        simp [wsPairP, this]
      · intro e t he
        simp [wsPairP, show jsWs '.' = false by decide]
    · refine noPair_cons ?_ ?_
      · refine noPair_cons ihr.2.1 ?_
        intro e t he
        simp [dotNoSpP]
      · intro e t he
        simp only [List.cons.injEq] at he
        simp [dotNoSpP, ← he.1]
    · refine noPair_cons ?_ ?_
      · refine noPair_cons ihr.2.2 ?_
        intro e t he
        have := (hhead e t he).2.1
        simp [spDotP, this]
      · intro e t he
        simp [spDotP]
  | case4 p c r hsp hdot ih =>
    intro hws hnp hdr hp hp1
    have hwr : ∀ x ∈ r, jsWs x = true → x = ' ' :=
      fun x hx => hws x (List.mem_cons_of_mem _ hx)
    have hcws : jsWs c = false := by
      rcases Decidable.em (jsWs c = true) with h1 | h1
      · exact absurd (hws c (List.mem_cons_self _ _) h1) hsp
      · simpa using h1
    have ihr := ih hwr (noPair_tail hnp) (noPair_tail hdr) (by omega) (by simp)
    have hout : padAux p (c :: r) =
        List.replicate p ' ' ++ c :: padAux 0 r := by
      simp [padAux, hsp, hdot]
    rw [hout]
    have hcons : ∀ (q : Char → Char → Bool),
        noPair q (c :: padAux 0 r) = true →
        noPair q (List.replicate p ' ' ++ c :: padAux 0 r) = true → True := by
      intro _ _ _; trivial
    have hccons : ∀ (q : Char → Char → Bool),
        (∀ e t, padAux 0 r = e :: t → q c e = false) →
        noPair q (padAux 0 r) = true →
        noPair q (c :: padAux 0 r) = true := by
      intro q hq hr
      exact noPair_cons hr hq
    have hfull : ∀ (q : Char → Char → Bool),
        (∀ e t, padAux 0 r = e :: t → q c e = false) →
        q ' ' c = false →
        noPair q (padAux 0 r) = true →
        noPair q (List.replicate p ' ' ++ c :: padAux 0 r) = true := by
      intro q hq hsc hr
      interval_cases p
      · exact hccons q hq hr
      · simpa using noPair_cons (hccons q hq hr)
          (fun e t he => by
            simp only [List.cons.injEq] at he
            exact he.1 ▸ hsc)
    refine ⟨?_, ?_, ?_⟩
    · exact hfull _ (fun e t he => by simp [wsPairP, hcws]) (by simp [wsPairP, hcws]) ihr.1
    · exact hfull _ (fun e t he => by simp [dotNoSpP, hdot]) (by simp [dotNoSpP]) ihr.2.1
    · exact hfull _ (fun e t he => by simp [spDotP, hsp]) (by simp [spDotP, hdot]) ihr.2.2

/-- Padding text that ends in a terminator yields text ending in the
padded terminator. -/
theorem padAux_ends : ∀ (p : Nat) (s : List Char),
    s.getLast? = some '.' →
    ∃ W, padAux p s = W ++ ['.', ' '] := by
  intro p s
  induction p, s using padAux.induct with
  | case1 p => intro h; cases h
  | case2 p r ih =>
    intro h
    have hr : r ≠ [] := by
      intro hnil
      subst hnil
      simp at h
    have hlast : r.getLast? = some '.' := by
      rw [getLast?_cons_ne_nil hr] at h
      exact h
    rcases ih hlast with ⟨W, hW⟩
    exact ⟨W, by simpa [padAux] using hW⟩
  | case3 p r hne ih =>
    intro h
    rcases r with _ | ⟨d, r'⟩
    · exact ⟨[], by simp [padAux]⟩
    · have hlast : (d :: r').getLast? = some '.' := by
        rw [getLast?_cons_ne_nil (by simp)] at h
        exact h
      rcases ih hlast with ⟨W, hW⟩
      refine ⟨'.' :: ' ' :: W, ?_⟩
      have hout : padAux p ('.' :: d :: r') = '.' :: ' ' :: padAux 0 (d :: r') := by
        simp [padAux]
      rw [hout, hW]
      simp
  | case4 p c r hsp hdot ih =>
    intro h
    have hr : r ≠ [] := by
      intro hn
      subst hn
      simp only [List.getLast?_singleton, Option.some_inj] at h
      exact hdot h
    have hlast : r.getLast? = some '.' := by
      rw [getLast?_cons_ne_nil hr] at h
      exact h
    rcases ih hlast with ⟨W, hW⟩
    refine ⟨List.replicate p ' ' ++ c :: W, ?_⟩
    have hout : padAux p (c :: r) = List.replicate p ' ' ++ c :: padAux 0 r := by
      simp [padAux, hsp, hdot]
    rw [hout, hW]
    simp

/-- Padding preserves a non-whitespace head. -/
theorem padAux_head {c : Char} {s : List Char}
    (h : s.head? = some c) (hc : jsWs c = false) :
    (padAux 0 s).head? = some c := by
  cases s with
  | nil => cases h
  | cons d r =>
    have hd : c = d := by simpa using h.symm
    subst hd
    by_cases hdot : c = '.'
    · subst hdot
      simp [padAux]
    · have hsp : ¬ c = ' ' := by
        intro hn
        rw [hn] at hc
        simp [show jsWs ' ' = true by decide] at hc
      simp [padAux, hsp, hdot]

/-- Flushing any run at the end of input erases it. -/
theorem trimWsRun_atEnd (a : Bool) (run : List Char) :
    trimWsRun a true run = [] := by
  unfold trimWsRun
  split
  · rfl
  · split
    · rfl
    · rfl

/-- An isolated interior space survives the trim flush. -/
theorem trimWsRun_space : trimWsRun false false [' '] = [' '] := by decide

/-- The trim regex deletes the leading whitespace run, so its output
never starts with whitespace. -/
theorem trimAux_head_notWs : ∀ (b : Bool) (acc s : List Char) {c : Char},
    b = true → (trimAux b acc s).head? = some c → jsWs c = false := by
  intro b acc s
  induction b, acc, s using trimAux.induct with
  | case1 b acc =>
    intro c hb h
    subst hb
    simp only [trimAux] at h
    rw [trimWsRun_atEnd] at h
    cases h
  | case2 b acc c r hc ih =>
    intro x hb h
    subst hb
    simp only [trimAux, if_pos hc] at h
    exact ih rfl h
  | case3 b acc c r hc ih =>
    intro x hb h
    subst hb
    simp only [trimAux, if_neg hc] at h
    rw [show trimWsRun true false acc = [] from by
      unfold trimWsRun; split <;> simp] at h
    simp only [List.nil_append, List.head?_cons, Option.some_inj] at h
    subst h
    simpa using hc

/-- The trim regex deletes the trailing whitespace run, so its output
never ends with whitespace. -/
theorem trimAux_last_notWs : ∀ (b : Bool) (acc s : List Char) {c : Char},
    (trimAux b acc s).getLast? = some c → jsWs c = false := by
  intro b acc s
  induction b, acc, s using trimAux.induct with
  | case1 b acc =>
    intro c h
    simp only [trimAux] at h
    rw [trimWsRun_atEnd] at h
    cases h
  | case2 b acc c r hc ih =>
    intro x h
    simp only [trimAux, if_pos hc] at h
    exact ih h
  | case3 b acc c r hc ih =>
    intro x h
    simp only [trimAux, if_neg hc] at h
    rw [List.getLast?_append_cons] at h
    rcases he : trimAux false [] r with _ | ⟨d, t⟩
    · rw [he] at h
      simp only [List.getLast?_singleton, Option.some_inj] at h
      subst h
      simpa using hc
    · rw [he] at h
      rw [getLast?_cons_ne_nil (by simp)] at h
      exact ih (he ▸ h)

/-- On text whose whitespace consists of isolated interior spaces and
which does not end in whitespace, the trim scan (past the start) is the
identity.  `acc` is the run under accumulation, empty or one space. -/
theorem trimAux_id_of : ∀ (s acc : List Char),
    (acc = [] ∨ acc = [' ']) →
    (∀ c ∈ acc ++ s, jsWs c = true → c = ' ') →
    noPair wsPairP (acc ++ s) = true →
    (∀ x, (acc ++ s).getLast? = some x → jsWs x = false) →
    trimAux false acc s = acc ++ s := by
  intro s
  induction s with
  | nil =>
    intro acc hacc hws hnp hlast
    rcases hacc with h | h <;> subst h
    · rfl
    · exfalso
      have := hlast ' ' (by simp)
      simp [show jsWs ' ' = true by decide] at this
  | cons c r ih =>
    intro acc hacc hws hnp hlast
    by_cases hw : jsWs c = true
    · have hc : c = ' ' := hws c (by simp) hw
      subst hc
      rcases hacc with h | h <;> subst h
      · have hstep : trimAux false [] (' ' :: r) = trimAux false [' '] r := by
          simp [trimAux, show jsWs ' ' = true from by decide]
        rw [hstep]
        exact ih [' '] (Or.inr rfl) hws hnp hlast
      · exfalso
        have := noPair_head hnp
        simp [wsPairP, show jsWs ' ' = true by decide] at this
    · have hstep : trimAux false acc (c :: r) =
          trimWsRun false false acc ++ c :: trimAux false [] r := by
        simp [trimAux, hw]
      have hflush : trimWsRun false false acc = acc := by
        rcases hacc with h | h <;> subst h
        · rfl
        · exact trimWsRun_space
      have hrec : trimAux false [] r = r := by
        apply ih [] (Or.inl rfl)
        · intro x hx
          apply hws x
          simp only [List.nil_append] at hx
          simp [hx]
        · simp only [List.nil_append]
          rcases hacc with h | h <;> subst h
          · exact noPair_tail (by simpa using hnp)
          · exact noPair_tail (noPair_tail (by simpa using hnp))
        · intro x hx
          simp only [List.nil_append] at hx
          apply hlast x
          rcases r with _ | ⟨d, t⟩
          · cases hx
          · rw [List.getLast?_append_cons, getLast?_cons_ne_nil (by simp)]
            exact hx
      rw [hstep, hflush, hrec]

/-- On such text followed by a single trailing space, the trim scan
deletes exactly that trailing space. -/
theorem trimAux_dropLast_of : ∀ (s acc : List Char),
    (acc = [] ∨ acc = [' ']) →
    (∀ c ∈ acc ++ s, jsWs c = true → c = ' ') →
    noPair wsPairP (acc ++ s) = true →
    (acc ++ s).getLast? = some ' ' →
    trimAux false acc s = (acc ++ s).dropLast := by
  intro s
  induction s with
  | nil =>
    intro acc hacc hws hnp hend
    rcases hacc with h | h <;> subst h
    · cases hend
    · simp only [trimAux]
      rw [trimWsRun_atEnd]
      rfl
  | cons c r ih =>
    intro acc hacc hws hnp hend
    by_cases hw : jsWs c = true
    · have hc : c = ' ' := hws c (by simp) hw
      subst hc
      rcases hacc with h | h <;> subst h
      · have hstep : trimAux false [] (' ' :: r) = trimAux false [' '] r := by
          simp [trimAux, show jsWs ' ' = true from by decide]
        rw [hstep]
        exact ih [' '] (Or.inr rfl) hws hnp hend
      · exfalso
        have := noPair_head hnp
        simp [wsPairP, show jsWs ' ' = true by decide] at this
    · have hstep : trimAux false acc (c :: r) =
          trimWsRun false false acc ++ c :: trimAux false [] r := by
        simp [trimAux, hw]
      have hflush : trimWsRun false false acc = acc := by
        rcases hacc with h | h <;> subst h
        · rfl
        · exact trimWsRun_space
      have hrne : r ≠ [] := by
        intro hn
        subst hn
        rw [List.getLast?_append_cons] at hend
        simp only [List.getLast?_singleton, Option.some_inj] at hend
        subst hend
        simp [show jsWs ' ' = true by decide] at hw
      have hrec : trimAux false [] r = r.dropLast := by
        apply ih [] (Or.inl rfl)
        · intro x hx
          exact hws x (by simpa using Or.inr (List.mem_cons_of_mem _ hx))
        · rcases hacc with h | h <;> subst h
          · exact noPair_tail hnp
          · exact noPair_tail (noPair_tail hnp)
        · rcases r with _ | ⟨d, t⟩
          · exact absurd rfl hrne
          · rw [List.getLast?_append_cons, getLast?_cons_ne_nil (by simp)] at hend
            simpa using hend
      rw [hstep, hflush, hrec]
      rw [List.dropLast_append_of_ne_nil _ (by simp),
        List.dropLast_cons_of_ne_nil hrne]

/-- `trimRegex` is the identity on text with non-whitespace head and
tail and isolated interior spaces. -/
theorem trimRegex_id (s : List Char)
    (hws : ∀ c ∈ s, jsWs c = true → c = ' ')
    (hnp : noPair wsPairP s = true)
    (hhead : ∀ c, s.head? = some c → jsWs c = false)
    (hlast : ∀ c, s.getLast? = some c → jsWs c = false) :
    trimRegex s = s := by
  cases s with
  | nil => rfl
  | cons c r =>
    have hc : jsWs c = false := hhead c rfl
    have hstep : trimRegex (c :: r) =
        trimWsRun true false [] ++ c :: trimAux false [] r := by
      simp [trimRegex, trimAux, hc]
    rw [hstep]
    have : trimAux false [] r = r := by
      apply trimAux_id_of r [] (Or.inl rfl)
      · intro x hx
        exact hws x (List.mem_cons_of_mem _ hx)
      · exact noPair_tail hnp
      · intro x hx
        apply hlast x
        rcases r with _ | ⟨d, t⟩
        · cases hx
        · rw [getLast?_cons_ne_nil (by simp)]
          exact hx
    rw [this]
    rfl

/-- `trimRegex` on such text extended with one trailing space deletes
exactly that space. -/
theorem trimRegex_dropLast (s : List Char)
    (hws : ∀ c ∈ s, jsWs c = true → c = ' ')
    (hnp : noPair wsPairP s = true)
    (hhead : ∀ c, s.head? = some c → jsWs c = false)
    (hend : s.getLast? = some ' ') :
    trimRegex s = s.dropLast := by
  cases s with
  | nil => cases hend
  | cons c r =>
    have hc : jsWs c = false := hhead c rfl
    have hrne : r ≠ [] := by
      intro hn
      subst hn
      simp only [List.getLast?_singleton, Option.some_inj] at hend
      subst hend
      simp [show jsWs ' ' = true by decide] at hc
    have hstep : trimRegex (c :: r) =
        trimWsRun true false [] ++ c :: trimAux false [] r := by
      simp [trimRegex, trimAux, hc]
    rw [hstep]
    have : trimAux false [] r = r.dropLast := by
      apply trimAux_dropLast_of r [] (Or.inl rfl)
      · intro x hx
        exact hws x (List.mem_cons_of_mem _ hx)
      · exact noPair_tail hnp
      · rw [getLast?_cons_ne_nil hrne] at hend
        exact hend
    rw [this]
    rw [List.dropLast_cons_of_ne_nil hrne]
    rfl

/-- Whitespace collapsing is the identity on text whose whitespace is
isolated single spaces. -/
theorem collapseWs_id : ∀ (s : List Char),
    (∀ c ∈ s, jsWs c = true → c = ' ') →
    noPair wsPairP s = true →
    collapseWs s = s := by
  intro s
  induction s with
  | nil => intro _ _; rfl
  | cons c r ih =>
    intro hws hnp
    have hwr : ∀ x ∈ r, jsWs x = true → x = ' ' :=
      fun x hx => hws x (List.mem_cons_of_mem _ hx)
    by_cases hw : jsWs c = true
    · have hc : c = ' ' := hws c (by simp) hw
      subst hc
      have habs : cwAux true r = cwAux false r := by
        cases r with
        | nil => rfl
        | cons d t =>
          have hd : jsWs d = false := by
            have := noPair_head hnp
            simp only [wsPairP, Bool.and_eq_true] at this
            rcases Decidable.em (jsWs d = true) with h1 | h1
            · simp [show jsWs ' ' = true by decide, h1] at this
            · simpa using h1
          simp [cwAux, hd]
      have ihr : cwAux false r = r := ih hwr (noPair_tail hnp)
      show cwAux false (' ' :: r) = ' ' :: r
      have : cwAux false (' ' :: r) = ' ' :: cwAux true r := by
        simp [cwAux, show jsWs ' ' = true by decide]
      rw [this, habs, ihr]
    · have ihr : cwAux false r = r := ih hwr (noPair_tail hnp)
      show cwAux false (c :: r) = c :: r
      have : cwAux false (c :: r) = c :: cwAux false r := by
        simp [cwAux, hw]
      rw [this, ihr]

/-- Space collapsing is the identity on text with no adjacent
whitespace. -/
theorem collapseSp_id : ∀ (s : List Char),
    (∀ c ∈ s, jsWs c = true → c = ' ') →
    noPair wsPairP s = true →
    collapseSp s = s := by
  intro s
  induction s with
  | nil => intro _ _; rfl
  | cons c r ih =>
    intro hws hnp
    have hwr : ∀ x ∈ r, jsWs x = true → x = ' ' :=
      fun x hx => hws x (List.mem_cons_of_mem _ hx)
    by_cases hsp : c = ' '
    · subst hsp
      have habs : spAux true r = spAux false r := by
        cases r with
        | nil => rfl
        | cons d t =>
          have hd : ¬ d = ' ' := by
            have := noPair_head hnp
            simp only [wsPairP, Bool.and_eq_true] at this
            intro hn
            subst hn
            simp [show jsWs ' ' = true by decide] at this
          simp [spAux, hd]
      have ihr : spAux false r = r := ih hwr (noPair_tail hnp)
      show spAux false (' ' :: r) = ' ' :: r
      have : spAux false (' ' :: r) = ' ' :: spAux true r := by
        simp [spAux]
      rw [this, habs, ihr]
    · have ihr : spAux false r = r := ih hwr (noPair_tail hnp)
      show spAux false (c :: r) = c :: r
      have : spAux false (c :: r) = c :: spAux false r := by
        simp [spAux, hsp]
      rw [this, ihr]

/-- Inside a run being absorbed, the next emitted character is not
whitespace. -/
theorem cwAux_true_head : ∀ (r : List Char) {d : Char},
    (cwAux true r).head? = some d → jsWs d = false := by
  intro r
  induction r with
  | nil => intro d h; cases h
  | cons c t ih =>
    intro d h
    by_cases hc : jsWs c = true
    · have he : cwAux true (c :: t) = cwAux true t := by
        simp [cwAux, hc]
      rw [he] at h
      exact ih h
    · have he : cwAux true (c :: t) = c :: cwAux false t := by
        simp [cwAux, hc]
      rw [he] at h
      simp only [List.head?_cons, Option.some_inj] at h
      subst h
      simpa using hc

/-- Whitespace collapsing never emits two adjacent whitespace
characters. -/
theorem cwAux_wsPair : ∀ (b : Bool) (s : List Char),
    noPair wsPairP (cwAux b s) = true := by
  intro b s
  induction b, s using cwAux.induct with
  | case1 b => rfl
  | case2 c r hc ih =>
    have he : cwAux true (c :: r) = cwAux true r := by
      simp [cwAux, hc]
    rw [he]
    exact ih
  | case3 b c r hc hb ih =>
    have he : cwAux b (c :: r) = ' ' :: cwAux true r := by
      simp [cwAux, hc, hb]
    rw [he]
    refine noPair_cons ih ?_
    intro e t he2
    have : (cwAux true r).head? = some e := by rw [he2]; rfl
    have := cwAux_true_head r this
    simp [wsPairP, this]
  | case4 b c r hc ih =>
    have he : cwAux b (c :: r) = c :: cwAux false r := by
      simp [cwAux, hc]
    rw [he]
    refine noPair_cons ih ?_
    intro e t he2
    simp only [wsPairP]
    simp only [Bool.not_eq_true] at hc
    simp [hc]

/-- Whitespace collapsing keeps a non-whitespace head. -/
theorem collapseWs_head_notWs {s : List Char}
    (h : ∀ c, s.head? = some c → jsWs c = false) :
    ∀ c, (collapseWs s).head? = some c → jsWs c = false := by
  intro c hc
  cases s with
  | nil => cases hc
  | cons d r =>
    have hd : jsWs d = false := h d rfl
    have he : collapseWs (d :: r) = d :: cwAux false r := by
      simp [collapseWs, cwAux, hd]
    rw [he] at hc
    simp only [List.head?_cons, Option.some_inj] at hc
    subst hc
    exact hd

/-- A nonempty prefix determines the head of an append. -/
theorem head?_append_ne_nil {V u : List Char} (h : V ≠ []) :
    (V ++ u).head? = V.head? := by
  cases V with
  | nil => exact absurd rfl h
  | cons c r => rfl

/-- `getLast?` through a character map. -/
theorem getLast?_map (f : Char → Char) : ∀ (s : List Char),
    (s.map f).getLast? = s.getLast?.map f := by
  intro s
  induction s with
  | nil => rfl
  | cons c r ih =>
    cases r with
    | nil => rfl
    | cons d t =>
      rw [List.map_cons, getLast?_cons_ne_nil (by simp),
        getLast?_cons_ne_nil (by simp)]
      exact ih

/-- Lowercasing preserves the whitespace-pair condition. -/
theorem wsPairP_asciiLower (a b : Char) :
    wsPairP (asciiLower a) (asciiLower b) = wsPairP a b := by
  simp [wsPairP, jsWs_asciiLower]

/-- Lowercasing preserves the terminator-spacing condition. -/
theorem dotNoSpP_asciiLower (a b : Char) :
    dotNoSpP (asciiLower a) (asciiLower b) = dotNoSpP a b := by
  simp only [dotNoSpP]
  rw [decide_eq_decide.2 (asciiLower_eq_iff (by decide) : asciiLower a = '.' ↔ a = '.')]
  rw [decide_eq_decide.2
    (not_congr (asciiLower_eq_iff (by decide) : asciiLower b = ' ' ↔ b = ' '))]

/-- Lowercasing preserves the space-before-terminator condition. -/
theorem spDotP_asciiLower (a b : Char) :
    spDotP (asciiLower a) (asciiLower b) = spDotP a b := by
  simp only [spDotP]
  rw [decide_eq_decide.2 (asciiLower_eq_iff (by decide) : asciiLower a = ' ' ↔ a = ' ')]
  rw [decide_eq_decide.2 (asciiLower_eq_iff (by decide) : asciiLower b = '.' ↔ b = '.')]

/-- Lowercasing preserves the banned-character test. -/
theorem bannedChar_asciiLower (c : Char) :
    bannedChar (asciiLower c) = bannedChar c := by
  refine decide_eq_decide.2 ?_
  exact or_congr (asciiLower_eq_iff (by decide))
    (or_congr (asciiLower_eq_iff (by decide))
      (or_congr (asciiLower_eq_iff (by decide))
        (or_congr (asciiLower_eq_iff (by decide))
          (or_congr (asciiLower_eq_iff (by decide))
            (or_congr (asciiLower_eq_iff (by decide))
              (or_congr (asciiLower_eq_iff (by decide))
                (asciiLower_eq_iff (by decide))))))))

/-- The punctuation and terminator maps eliminate every banned
character. -/
theorem bannedChar_unify_punct (c : Char) :
    bannedChar (unifyTerm (punctToSpace c)) = false := by
  unfold punctToSpace unifyTerm bannedChar
  split
  · next h =>
    split
    · rfl
    · decide
  · next h =>
    split
    · rfl
    · next h2 =>
      rw [decide_eq_false_iff_not]
      push_neg at h h2
      push_neg
      exact ⟨h.1, h.2.1, h.2.2.1, h.2.2.2.1, h.2.2.2.2.1, h.2.2.2.2.2, h2.2.1, h2.2.2⟩

/-- Shape of the normalizer output: `clean_text t` is the lowercasing
of a string `V` with isolated single spaces, every terminator followed
by a space or final, no space before a terminator, a non-whitespace
head, a final terminator, and no banned characters. -/
theorem clean_text_shape (t : List Char) :
    ∃ V, clean_text t = V.map asciiLower ∧
      (∀ c ∈ V, jsWs c = true → c = ' ') ∧
      noPair wsPairP V = true ∧
      noPair dotNoSpP V = true ∧
      noPair spDotP V = true ∧
      (∀ c, V.head? = some c → jsWs c = false) ∧
      V.getLast? = some '.' ∧
      (∀ c ∈ V, bannedChar c = false) := by
  set s4 := ((stripTags (fullStopTagsStep t)).map punctToSpace).map unifyTerm with hs4
  have hs4banned : ∀ c ∈ s4, bannedChar c = false := by
    intro c hc
    rw [hs4] at hc
    rcases List.mem_map.1 hc with ⟨d, hd, hdc⟩
    rcases List.mem_map.1 hd with ⟨e, _, hde⟩
    rw [← hdc, ← hde]
    exact bannedChar_unify_punct e
  set A := collapseWs (trimRegex s4) with hA
  have hAws : ∀ c ∈ A, jsWs c = true → c = ' ' := by
    intro c hc
    exact cwAux_ws_space false (trimRegex s4) hc
  have hAnp : noPair wsPairP A = true := cwAux_wsPair false (trimRegex s4)
  have hAhead : ∀ c, A.head? = some c → jsWs c = false := by
    apply collapseWs_head_notWs
    intro c hc
    exact trimAux_head_notWs true [] s4 rfl hc
  have hAbanned : ∀ c ∈ A, bannedChar c = false := by
    intro c hc
    rcases mem_cwAux_sub false (trimRegex s4) hc with h | h
    · rcases mem_trimAux_sub true [] s4 h with h2 | h2
      · cases h2
      · exact hs4banned c h2
    · subst h; decide
  set s5 : List Char := A ++ ['.'] with hs5
  have hws5 : ∀ c ∈ s5, jsWs c = true → c = ' ' := by
    intro c hc
    rcases List.mem_append.1 hc with h | h
    · exact hAws c h
    · simp only [List.mem_singleton] at h
      subst h
      intro h2
      exact absurd h2 (by decide)
  have hnp5 : noPair wsPairP s5 = true := by
    apply noPair_append_singleton _ hAnp
    intro a
    simp [wsPairP, show jsWs '.' = false by decide]
  have hhead5 : ∀ c, s5.head? = some c → jsWs c = false := by
    intro c hc
    rcases hAe : A with _ | ⟨d, r⟩
    · rw [hs5, hAe] at hc
      simp only [List.nil_append, List.head?_cons, Option.some_inj] at hc
      subst hc
      decide
    · rw [hs5, head?_append_ne_nil (by simp [hAe])] at hc
      exact hAhead c hc
  have hlast5 : s5.getLast? = some '.' := by
    rw [hs5]
    exact List.getLast?_concat A
  have hbanned5 : ∀ c ∈ s5, bannedChar c = false := by
    intro c hc
    rcases List.mem_append.1 hc with h | h
    · exact hAbanned c h
    · simp only [List.mem_singleton] at h
      subst h
      decide
  have hnl : nlStep s5 = s5 := by
    apply nlStep_id
    intro c hc
    constructor
    · intro h
      subst h
      have := hws5 _ hc (by decide)
      cases this
    · intro h
      subst h
      have := hws5 _ hc (by decide)
      cases this
  set s7 := dedup s5 with hs7
  have hws7 : ∀ c ∈ s7, jsWs c = true → c = ' ' := by
    intro c hc
    exact hws5 c (mem_dedupAux_sub false s5 hc)
  have hnp7 : noPair wsPairP s7 = true := dedupAux_wsPair false s5 hws5 hnp5
  have hdr7 : noPair dotRunP s7 = true := dedupAux_dotRun false s5
  have hlast7 : s7.getLast? = some '.' := (dedupAux_endsDot s5 hlast5).2
  have hhead7 : ∀ c, s7.head? = some c → jsWs c = false := by
    intro c hc
    rw [hs7] at hc
    unfold dedup at hc
    rw [dedupAux_false_head] at hc
    exact hhead5 c hc
  have hbanned7 : ∀ c ∈ s7, bannedChar c = false := by
    intro c hc
    exact hbanned5 c (mem_dedupAux_sub false s5 hc)
  set P := pad s7 with hP
  have hpairs := padAux_pairs 0 s7 hws7 hnp7 hdr7 (by omega) (by omega)
  have hPws : ∀ c ∈ P, jsWs c = true → c = ' ' := by
    intro c hc
    rcases mem_padAux_sub 0 s7 hc with h | h
    · exact hws7 c h
    · intro _; exact h
  have hPbanned : ∀ c ∈ P, bannedChar c = false := by
    intro c hc
    rcases mem_padAux_sub 0 s7 hc with h | h
    · exact hbanned7 c h
    · subst h; decide
  have hPhead : ∀ c, P.head? = some c → jsWs c = false := by
    intro c hc
    rcases he7 : s7 with _ | ⟨d, r⟩
    · rw [hP, he7] at hc
      cases hc
    · have hd : jsWs d = false := hhead7 d (by rw [he7]; rfl)
      have hph := padAux_head (s := s7) (by rw [he7]; rfl) hd
      have hthis : P.head? = some d := by rw [hP]; exact hph
      have : c = d := by
        have h2 := hthis.symm.trans hc
        have h3 : d = c := by simpa using h2
        exact h3.symm
      rw [this]
      exact hd
  rcases padAux_ends 0 s7 hlast7 with ⟨W, hW0⟩
  have hW : P = W ++ ['.', ' '] := by rw [hP]; exact hW0
  have hPlast : P.getLast? = some ' ' := by
    rw [hW, show W ++ ['.', ' '] = (W ++ ['.']) ++ [' '] by simp]
    exact List.getLast?_concat _
  have htrim : trimRegex P = P.dropLast :=
    trimRegex_dropLast P hPws hpairs.1 hPhead hPlast
  set V : List Char := W ++ ['.'] with hV
  have hPV : P = V ++ [' '] := by
    rw [hW, hV]
    simp
  have hdrop : P.dropLast = V := by
    rw [hPV]
    exact List.dropLast_concat
  have hVws : ∀ c ∈ V, jsWs c = true → c = ' ' := by
    intro c hc
    apply hPws c
    rw [hPV]
    exact List.mem_append_left _ hc
  have hp1 : noPair wsPairP P = true := by rw [hP]; exact hpairs.1
  have hp2 : noPair dotNoSpP P = true := by rw [hP]; exact hpairs.2.1
  have hp3 : noPair spDotP P = true := by rw [hP]; exact hpairs.2.2
  have hVnp : noPair wsPairP V = true := by
    rw [hPV] at hp1
    exact noPair_append_left hp1
  have hVdot : noPair dotNoSpP V = true := by
    rw [hPV] at hp2
    exact noPair_append_left hp2
  have hVsp : noPair spDotP V = true := by
    rw [hPV] at hp3
    exact noPair_append_left hp3
  have hVhead : ∀ c, V.head? = some c → jsWs c = false := by
    intro c hc
    apply hPhead c
    rw [hPV, head?_append_ne_nil (by rw [hV]; simp)]
    exact hc
  have hVlast : V.getLast? = some '.' := by
    rw [hV]
    exact List.getLast?_concat W
  have hcw : collapseWs V = V := collapseWs_id V hVws hVnp
  have hsp : collapseSp V = V := collapseSp_id V hVws hVnp
  refine ⟨V, ?_, hVws, hVnp, hVdot, hVsp, hVhead, hVlast, ?_⟩
  · show (collapseSp (collapseWs (trimRegex (pad (dedup (nlStep s5)))))).map
      asciiLower = V.map asciiLower
    rw [hnl, ← hs7, ← hP, htrim, hdrop, hcw, hsp]
  · intro c hc
    apply hPbanned c
    rw [hPV]
    exact List.mem_append_left _ hc

/-- Weaken a pair condition. -/
theorem noPair_mono {p q : Char → Char → Bool}
    (hpq : ∀ a b, q a b = true → p a b = true) :
    ∀ {s : List Char}, noPair p s = true → noPair q s = true := by
  intro s
  induction s with
  | nil => intro _; rfl
  | cons a r ih =>
    intro h
    have h2 := ih (noPair_tail h)
    cases r with
    | nil => rfl
    | cons b r' =>
      refine noPair_cons h2 ?_
      intro e t he
      simp only [List.cons.injEq] at he
      rcases Decidable.em (q a e = true) with hq | hq
      · exfalso
        have hp := hpq a e hq
        rw [← he.1] at hp
        rw [noPair_head h] at hp
        cases hp
      · simpa using hq

/-- The invariants of cleaned text, transported through the final
lowercasing. -/
theorem clean_text_invariants (t : List Char) :
    noPair wsPairP (clean_text t) = true ∧
    noPair dotNoSpP (clean_text t) = true ∧
    noPair spDotP (clean_text t) = true ∧
    (∀ c, (clean_text t).head? = some c → jsWs c = false) ∧
    (clean_text t).getLast? = some '.' ∧
    (∀ c ∈ clean_text t, jsWs c = true → c = ' ') ∧
    (∀ c ∈ clean_text t, bannedChar c = false) ∧
    (∀ c ∈ clean_text t, asciiLower c = c) := by
  rcases clean_text_shape t with ⟨V, hXV, hws, hnp, hdot, hsp, hhead, hlast, hban⟩
  rw [hXV]
  refine ⟨noPair_map wsPairP_asciiLower hnp,
    noPair_map dotNoSpP_asciiLower hdot,
    noPair_map spDotP_asciiLower hsp, ?_, ?_, ?_, ?_, ?_⟩
  · intro c hc
    rw [List.head?_map] at hc
    rcases he : V.head? with _ | d
    · rw [he] at hc; cases hc
    · rw [he] at hc
      simp only [Option.map_some', Option.some_inj] at hc
      rw [← hc, jsWs_asciiLower]
      exact hhead d he
  · rw [getLast?_map, hlast]
    simp only [Option.map_some', Option.some_inj]
    decide
  · intro c hc hcw
    rcases List.mem_map.1 hc with ⟨d, hd, hdc⟩
    rw [← hdc] at hcw ⊢
    rw [jsWs_asciiLower] at hcw
    rw [hws d hd hcw]
    decide
  · intro c hc
    rcases List.mem_map.1 hc with ⟨d, hd, hdc⟩
    rw [← hdc, bannedChar_asciiLower]
    exact hban d hd
  · intro c hc
    rcases List.mem_map.1 hc with ⟨d, hd, hdc⟩
    rw [← hdc]
    exact asciiLower_idem d

/-- Terminators are at most spaces plus one when every terminator is
followed by a space or final. -/
theorem dots_le_spaces : ∀ (n : Nat) (s : List Char), s.length ≤ n →
    noPair dotNoSpP s = true →
    s.countP (fun c => c = '.') ≤
      s.countP (fun c => c = ' ') +
        (if s.getLast? = some '.' then 1 else 0) := by
  intro n
  induction n with
  | zero =>
    intro s hlen _
    have : s = [] := List.length_eq_zero.1 (Nat.le_zero.1 hlen)
    subst this
    simp
  | succ n ih =>
    intro s hlen hnp
    cases s with
    | nil => simp
    | cons c r =>
      by_cases hc : c = '.'
      · subst hc
        cases r with
        | nil => simp
        | cons d r' =>
          have hd : d = ' ' := by
            have := noPair_head hnp
            simp only [dotNoSpP, Bool.and_eq_true, decide_eq_true_eq,
              Bool.not_eq_eq_eq_not] at this
            rcases Decidable.em (d = ' ') with h1 | h1
            · exact h1
            · exfalso
              simp [h1] at this
          subst hd
          have hr' := ih r' (by simp at hlen; omega)
            (noPair_tail (noPair_tail hnp))
          have hlast : ('.' :: ' ' :: r').getLast? = r'.getLast? ∨ r' = [] := by
            cases r' with
            | nil => exact Or.inr rfl
            | cons e t =>
              left
              rw [getLast?_cons_ne_nil (by simp), getLast?_cons_ne_nil (by simp)]
          rcases hlast with h | h
          · rw [h]
            have e1 : List.countP (fun c => decide (c = '.')) ('.' :: ' ' :: r') =
                List.countP (fun c => decide (c = '.')) r' + 1 := by
              simp +decide [List.countP_cons]
            have e2 : List.countP (fun c => decide (c = ' ')) ('.' :: ' ' :: r') =
                List.countP (fun c => decide (c = ' ')) r' + 1 := by
              simp +decide [List.countP_cons]
            rw [e1, e2]
            omega
          · subst h
            simp +decide
      · have hr := ih r (by simp at hlen; omega) (noPair_tail hnp)
        have hlast : (c :: r).getLast? = r.getLast? ∨ r = [] := by
          cases r with
          | nil => exact Or.inr rfl
          | cons e t => exact Or.inl (getLast?_cons_ne_nil (by simp))
        rcases hlast with h | h
        · rw [h]
          have e1 : List.countP (fun x => decide (x = '.')) (c :: r) =
              List.countP (fun x => decide (x = '.')) r := by
            simp [List.countP_cons, hc]
          have e2 : List.countP (fun x => decide (x = ' ')) r ≤
              List.countP (fun x => decide (x = ' ')) (c :: r) := by
            simp only [List.countP_cons]
            omega
          omega
        · subst h
          simp [List.countP_cons, hc]

/-! ### The angle-bracket invariant

`ltOk` holds of every intermediate string of the pipeline from the tag
strip on: every `<` is immediately followed by `>` or has no `>` after
it.  Under this invariant neither the closing-tag search nor the tag
regex can match, which is what makes the first two normalizer steps
idempotent. -/

/-- `ltOk` on a tail. -/
theorem ltOk_tail {c : Char} {r : List Char} (h : ltOk (c :: r) = true) :
    ltOk r = true := by
  simp only [ltOk, Bool.and_eq_true] at h
  exact h.2

/-- The head condition of `ltOk` at a `<`. -/
theorem ltOk_head_cond {r : List Char} (h : ltOk ('<' :: r) = true) :
    r = [] ∨ (∃ r', r = '>' :: r') ∨ gtFree r = true := by
  simp only [ltOk, Bool.and_eq_true, Bool.or_eq_true] at h
  rcases h.1 with h1 | h1
  · simp at h1
  · rcases r with _ | ⟨d, r'⟩
    · exact Or.inl rfl
    · simp only [Bool.or_eq_true, decide_eq_true_eq] at h1
      rcases h1 with h1 | h1
      · exact Or.inr (Or.inl ⟨r', by rw [h1]⟩)
      · exact Or.inr (Or.inr h1)

/-- Build `ltOk` on a cons cell. -/
theorem ltOk_cons {c : Char} {r : List Char} (hr : ltOk r = true)
    (hc : c = '<' → (r = [] ∨ (∃ r', r = '>' :: r') ∨ gtFree r = true)) :
    ltOk (c :: r) = true := by
  simp only [ltOk, Bool.and_eq_true, Bool.or_eq_true]
  refine ⟨?_, hr⟩
  by_cases h : c = '<'
  · right
    rcases hc h with h2 | ⟨r', h2⟩ | h2
    · subst h2; rfl
    · subst h2
      simp
    · rcases r with _ | ⟨d, r'⟩
      · rfl
      · simp only [Bool.or_eq_true]
        exact Or.inr h2
  · left
    simp [h]

/-- A cons on a non-`<` character. -/
theorem ltOk_cons_inert {c : Char} {r : List Char} (hc : ¬ c = '<')
    (hr : ltOk r = true) : ltOk (c :: r) = true :=
  ltOk_cons hr (fun h => absurd h hc)

/-- A `>`-free string is `ltOk`. -/
theorem ltOk_of_gtFree : ∀ {s : List Char}, gtFree s = true → ltOk s = true := by
  intro s
  induction s with
  | nil => intro _; rfl
  | cons c r ih =>
    intro h
    have hr : gtFree r = true := by
      simp only [gtFree, List.all_cons, Bool.and_eq_true] at h
      exact h.2
    exact ltOk_cons (ih hr) (fun _ => Or.inr (Or.inr hr))

/-- Prepend `<`-free text to an `ltOk` string. -/
theorem ltOk_append_inert : ∀ {w u : List Char},
    (∀ c ∈ w, ¬ c = '<') → ltOk u = true → ltOk (w ++ u) = true := by
  intro w u
  induction w with
  | nil => intro _ h; exact h
  | cons a w' ih =>
    intro hw hu
    exact ltOk_cons_inert (hw a (by simp))
      (ih (fun c hc => hw c (List.mem_cons_of_mem _ hc)) hu)

/-- `gtFree` transfers along a subset relation. -/
theorem gtFree_of_sub {s u : List Char}
    (hsub : ∀ c ∈ u, c ∈ s ∨ c = ' ' ∨ c = '.')
    (h : gtFree s = true) : gtFree u = true := by
  simp only [gtFree, List.all_eq_true, decide_eq_true_eq] at h ⊢
  intro c hc
  rcases hsub c hc with h2 | h2 | h2
  · exact h c h2
  · subst h2; decide
  · subst h2; decide

/-- `ltOk` survives removal of a trailing non-`>` character. -/
theorem ltOk_dropLast_singleton : ∀ {u : List Char} {x : Char},
    ¬ x = '>' → ltOk (u ++ [x]) = true → ltOk u = true := by
  intro u
  induction u with
  | nil => intro x _ _; rfl
  | cons c r ih =>
    intro x hx h
    rw [List.cons_append] at h
    refine ltOk_cons (ih hx (ltOk_tail h)) ?_
    intro hc
    subst hc
    rcases ltOk_head_cond h with h2 | ⟨r', h2⟩ | h2
    · rcases List.append_eq_nil.1 h2 with ⟨h3, _⟩
      exact Or.inl h3
    · rcases r with _ | ⟨d, r''⟩
      · exact Or.inl rfl
      · right; left
        rw [List.cons_append] at h2
        simp only [List.cons.injEq] at h2
        exact ⟨r'', by rw [h2.1]⟩
    · right; right
      simp only [gtFree, List.all_eq_true, decide_eq_true_eq] at h2 ⊢
      intro c2 hc2
      exact h2 c2 (List.mem_append_left _ hc2)

/-- `ltOk` of a suffix. -/
theorem ltOk_append_right : ∀ {w u : List Char},
    ltOk (w ++ u) = true → ltOk u = true := by
  intro w
  induction w with
  | nil => intro u h; exact h
  | cons a w' ih => intro u h; exact ih (ltOk_tail h)

/-- Transport of the `<`-head condition from the input tail to the
output tail of a scanner that maps `[]` to `[]`, keeps a `>` head, and
only emits input characters, spaces or terminators. -/
theorem ltOk_cond_transport {r out : List Char}
    (hcond : r = [] ∨ (∃ r', r = '>' :: r') ∨ gtFree r = true)
    (hnil : r = [] → out = [])
    (hgt : ∀ r', r = '>' :: r' → ∃ t, out = '>' :: t)
    (hsub : ∀ c ∈ out, c ∈ r ∨ c = ' ' ∨ c = '.') :
    out = [] ∨ (∃ t, out = '>' :: t) ∨ gtFree out = true := by
  rcases hcond with h | ⟨r', h⟩ | h
  · exact Or.inl (hnil h)
  · exact Or.inr (Or.inl (hgt r' h))
  · exact Or.inr (Or.inr (gtFree_of_sub hsub h))

/-- The newline replacement only outputs input characters or spaces. -/
theorem mem_nlAux_sub {x : Char} : ∀ (p : Nat) (b : Bool) (s : List Char),
    x ∈ nlAux p b s → x ∈ s ∨ x = ' ' := by
  intro p b s
  induction p, b, s using nlAux.induct with
  | case1 p b =>
    intro h
    exact Or.inr (List.eq_of_mem_replicate h)
  | case2 p b r ih =>
    intro h
    simp only [nlAux] at h
    rcases List.mem_cons.1 h with h | h
    · exact Or.inr h
    · rcases ih h with h | h
      · exact Or.inl (by simp [h])
      · exact Or.inr h
  | case3 p b r ih =>
    intro h
    simp only [nlAux] at h
    rcases List.mem_cons.1 h with h | h
    · exact Or.inr h
    · rcases ih h with h | h
      · exact Or.inl (by simp [h])
      · exact Or.inr h
  | case4 p b r hne ih =>
    intro h
    simp only [nlAux] at h
    rcases List.mem_cons.1 h with h | h
    · exact Or.inr h
    · rcases ih h with h | h
      · exact Or.inl (by simp [h])
      · exact Or.inr h
  | case5 p r h1 h2 h3 ih =>
    intro h
    simp only [nlAux] at h
    rcases ih h with h | h
    · exact Or.inl (by simp [h])
    · exact Or.inr h
  | case6 p b r hb h1 h2 h3 ih =>
    intro h
    simp only [nlAux, if_pos rfl, if_neg hb] at h
    rcases ih h with h | h
    · exact Or.inl (by simp [h])
    · exact Or.inr h
  | case7 p b c r h1 h2 h3 hc ih =>
    intro h
    simp only [nlAux, if_neg hc] at h
    rcases List.mem_append.1 h with h | h
    · exact Or.inr (List.eq_of_mem_replicate h)
    · rcases List.mem_cons.1 h with h | h
      · exact Or.inl (by simp [h])
      · rcases ih h with h | h
        · exact Or.inl (by simp [h])
        · exact Or.inr h

/-- The trim regex preserves the angle-bracket invariant. -/
theorem ltOk_trimAux : ∀ (b : Bool) (acc s : List Char),
    (∀ c ∈ acc, jsWs c = true) → ltOk (acc ++ s) = true →
    ltOk (trimAux b acc s) = true := by
  intro b acc s
  induction b, acc, s using trimAux.induct with
  | case1 b acc =>
    intro _ _
    simp only [trimAux]
    rw [trimWsRun_atEnd]
    rfl
  | case2 b acc c r hc ih =>
    intro hacc h
    simp only [trimAux, if_pos hc]
    apply ih
    · intro x hx
      rcases List.mem_append.1 hx with h2 | h2
      · exact hacc x h2
      · simp only [List.mem_singleton] at h2
        subst h2
        exact hc
    · rw [List.append_assoc]
      exact h
  | case3 b acc c r hc ih =>
    intro hacc h
    simp only [trimAux, if_neg hc]
    have hltr : ltOk (c :: r) = true := ltOk_append_right h
    apply ltOk_append_inert
    · intro x hx
      have := hacc x (mem_trimWsRun_sub hx)
      intro h2
      subst h2
      rw [show jsWs '<' = false from by decide] at this
      cases this
    · refine ltOk_cons (ih (fun _ h => by cases h) (ltOk_tail hltr)) ?_
      intro h2
      subst h2
      apply ltOk_cond_transport (ltOk_head_cond hltr)
      · intro h3
        subst h3
        simp [trimAux]
        rw [trimWsRun_atEnd]
      · intro r' h3
        subst h3
        refine ⟨trimAux false [] r', ?_⟩
        simp [trimAux, show jsWs '>' = false from by decide, trimWsRun]
      · intro x hx
        rcases mem_trimAux_sub false [] r hx with h3 | h3
        · cases h3
        · exact Or.inl h3

/-- Whitespace collapsing preserves the angle-bracket invariant. -/
theorem ltOk_cwAux : ∀ (b : Bool) (s : List Char),
    ltOk s = true → ltOk (cwAux b s) = true := by
  intro b s
  induction b, s using cwAux.induct with
  | case1 b => intro _; rfl
  | case2 c r hc ih =>
    intro h
    have he : cwAux true (c :: r) = cwAux true r := by simp [cwAux, hc]
    rw [he]
    exact ih (ltOk_tail h)
  | case3 b c r hc hb ih =>
    intro h
    have he : cwAux b (c :: r) = ' ' :: cwAux true r := by simp [cwAux, hc, hb]
    rw [he]
    exact ltOk_cons_inert (by decide) (ih (ltOk_tail h))
  | case4 b c r hc ih =>
    intro h
    have he : cwAux b (c :: r) = c :: cwAux false r := by simp [cwAux, hc]
    rw [he]
    refine ltOk_cons (ih (ltOk_tail h)) ?_
    intro h2
    subst h2
    apply ltOk_cond_transport (ltOk_head_cond h)
    · intro h3; subst h3; rfl
    · intro r' h3
      subst h3
      exact ⟨cwAux false r', by simp [cwAux, show jsWs '>' = false from by decide]⟩
    · intro x hx
      rcases mem_cwAux_sub false r hx with h3 | h3
      · exact Or.inl h3
      · exact Or.inr (Or.inl h3)

/-- Space collapsing preserves the angle-bracket invariant. -/
theorem ltOk_spAux : ∀ (b : Bool) (s : List Char),
    ltOk s = true → ltOk (spAux b s) = true := by
  intro b s
  induction b, s using spAux.induct with
  | case1 b => intro _; rfl
  | case2 r ih =>
    intro h
    have he : spAux true (' ' :: r) = spAux true r := by simp [spAux]
    rw [he]
    exact ih (ltOk_tail h)
  | case3 b r hb ih =>
    intro h
    have he : spAux b (' ' :: r) = ' ' :: spAux true r := by simp [spAux, hb]
    rw [he]
    exact ltOk_cons_inert (by decide) (ih (ltOk_tail h))
  | case4 b c r hc ih =>
    intro h
    have he : spAux b (c :: r) = c :: spAux false r := by simp [spAux, hc]
    rw [he]
    refine ltOk_cons (ih (ltOk_tail h)) ?_
    intro h2
    subst h2
    apply ltOk_cond_transport (ltOk_head_cond h)
    · intro h3; subst h3; rfl
    · intro r' h3
      subst h3
      exact ⟨spAux false r', by simp [spAux]⟩
    · intro x hx
      rcases mem_spAux_sub false r hx with h3 | h3
      · exact Or.inl h3
      · exact Or.inr (Or.inl h3)

/-- Appending a terminator preserves the angle-bracket invariant. -/
theorem ltOk_append_dot : ∀ {u : List Char},
    ltOk u = true → ltOk (u ++ ['.']) = true := by
  intro u
  induction u with
  | nil => intro _; decide
  | cons c r ih =>
    intro h
    rw [List.cons_append]
    refine ltOk_cons (ih (ltOk_tail h)) ?_
    intro h2
    subst h2
    rcases ltOk_head_cond h with h3 | ⟨r', h3⟩ | h3
    · subst h3
      right; right
      decide
    · subst h3
      exact Or.inr (Or.inl ⟨r' ++ ['.'], rfl⟩)
    · right; right
      apply gtFree_of_sub (s := r) _ h3
      intro x hx
      rcases List.mem_append.1 hx with h4 | h4
      · exact Or.inl h4
      · simp only [List.mem_singleton] at h4
        exact Or.inr (Or.inr h4)

/-- The newline replacement preserves the angle-bracket invariant. -/
theorem ltOk_nlAux : ∀ (p : Nat) (b : Bool) (s : List Char),
    ltOk s = true → ltOk (nlAux p b s) = true := by
  intro p b s
  induction p, b, s using nlAux.induct with
  | case1 p b =>
    intro _
    apply ltOk_of_gtFree
    simp only [gtFree, List.all_eq_true, decide_eq_true_eq]
    intro c hc
    rw [List.eq_of_mem_replicate hc]
    decide
  | case2 p b r ih =>
    intro h
    simp only [nlAux]
    exact ltOk_cons_inert (by decide) (ih (ltOk_tail (ltOk_tail h)))
  | case3 p b r ih =>
    intro h
    simp only [nlAux]
    exact ltOk_cons_inert (by decide) (ih (ltOk_tail h))
  | case4 p b r hne ih =>
    intro h
    simp only [nlAux]
    exact ltOk_cons_inert (by decide) (ih (ltOk_tail h))
  | case5 p r h1 h2 h3 ih =>
    intro h
    simp only [nlAux]
    exact ih (ltOk_tail h)
  | case6 p b r hb h1 h2 h3 ih =>
    intro h
    simp only [nlAux, if_pos rfl, if_neg hb]
    exact ih (ltOk_tail h)
  | case7 p b c r h1 h2 h3 hc ih =>
    intro h
    simp only [nlAux, if_neg hc]
    apply ltOk_append_inert
    · intro x hx
      rw [List.eq_of_mem_replicate hx]
      decide
    · refine ltOk_cons (ih (ltOk_tail h)) ?_
      intro h4
      subst h4
      apply ltOk_cond_transport (ltOk_head_cond h)
      · intro h5; subst h5; rfl
      · intro r' h5
        subst h5
        exact ⟨nlAux 0 false r', by simp [nlAux]⟩
      · intro x hx
        rcases mem_nlAux_sub 0 false r hx with h5 | h5
        · exact Or.inl h5
        · exact Or.inr (Or.inl h5)

/-- The duplicate-terminator collapse preserves the angle-bracket
invariant. -/
theorem ltOk_dedupAux : ∀ (b : Bool) (s : List Char),
    ltOk s = true → ltOk (dedupAux b s) = true := by
  intro b s
  induction s generalizing b with
  | nil => intro _; cases b <;> rfl
  | cons c r ih =>
    intro h
    have hcons : ∀ (hne : ¬ c = '<'), ltOk (c :: dedupAux false r) = true →
        True := fun _ _ => trivial
    have hkey : ltOk (c :: dedupAux false r) = true := by
      refine ltOk_cons (ih false (ltOk_tail h)) ?_
      intro h2
      subst h2
      apply ltOk_cond_transport (ltOk_head_cond h)
      · intro h3; subst h3; rfl
      · intro r' h3
        subst h3
        exact ⟨dedupAux false r', by simp [dedupAux]⟩
      · intro x hx
        exact Or.inl (mem_dedupAux_sub false r hx)
    by_cases hb : b
    · subst hb
      by_cases hc : c = '.' ∨ c = ' '
      · have he : dedupAux true (c :: r) = dedupAux true r := by
          simp [dedupAux, hc]
        rw [he]
        exact ih true (ltOk_tail h)
      · have he : dedupAux true (c :: r) = c :: dedupAux false r := by
          simp [dedupAux, hc]
        rw [he]
        exact hkey
    · simp only [Bool.not_eq_true] at hb
      subst hb
      by_cases hc : c = '.'
      · subst hc
        have he : dedupAux false ('.' :: r) = '.' :: dedupAux true r := by
          simp [dedupAux]
        rw [he]
        exact ltOk_cons_inert (by decide) (ih true (ltOk_tail h))
      · have he : dedupAux false (c :: r) = c :: dedupAux false r := by
          simp [dedupAux, hc]
        rw [he]
        exact hkey

/-- Padding preserves the angle-bracket invariant. -/
theorem ltOk_padAux : ∀ (p : Nat) (s : List Char),
    ltOk s = true → ltOk (padAux p s) = true := by
  intro p s
  induction p, s using padAux.induct with
  | case1 p =>
    intro _
    apply ltOk_of_gtFree
    simp only [gtFree, List.all_eq_true, decide_eq_true_eq]
    intro c hc
    rw [List.eq_of_mem_replicate hc]
    decide
  | case2 p r ih =>
    intro h
    simp only [padAux]
    exact ih (ltOk_tail h)
  | case3 p r hne ih =>
    intro h
    simp only [padAux]
    exact ltOk_cons_inert (by decide)
      (ltOk_cons_inert (by decide) (ih (ltOk_tail h)))
  | case4 p c r hsp hdot ih =>
    intro h
    simp only [padAux, if_neg hsp, if_neg hdot]
    apply ltOk_append_inert
    · intro x hx
      rw [List.eq_of_mem_replicate hx]
      decide
    · refine ltOk_cons (ih (ltOk_tail h)) ?_
      intro h2
      subst h2
      apply ltOk_cond_transport (ltOk_head_cond h)
      · intro h3; subst h3; rfl
      · intro r' h3
        subst h3
        exact ⟨padAux 0 r', by simp [padAux]⟩
      · intro x hx
        rcases mem_padAux_sub 0 r hx with h3 | h3
        · exact Or.inl h3
        · exact Or.inr (Or.inl h3)

/-- A character map that reflects `<` and preserves and reflects `>`
preserves the angle-bracket invariant. -/
theorem ltOk_map {f : Char → Char}
    (hf : ∀ c, (f c = '<' ↔ c = '<') ∧ (f c = '>' ↔ c = '>')) :
    ∀ {s : List Char}, ltOk s = true → ltOk (s.map f) = true := by
  intro s
  induction s with
  | nil => intro _; rfl
  | cons c r ih =>
    intro h
    rw [List.map_cons]
    refine ltOk_cons (ih (ltOk_tail h)) ?_
    intro h2
    have hcl : c = '<' := (hf c).1.1 h2
    subst hcl
    rcases ltOk_head_cond h with h3 | ⟨r', h3⟩ | h3
    · subst h3
      exact Or.inl rfl
    · subst h3
      right; left
      refine ⟨r'.map f, ?_⟩
      rw [List.map_cons, (hf '>').2.2 rfl]
    · right; right
      simp only [gtFree, List.all_eq_true, decide_eq_true_eq] at h3 ⊢
      intro x hx
      rcases List.mem_map.1 hx with ⟨d, hd, hdx⟩
      intro hgt
      rw [← hdx] at hgt
      exact h3 d hd ((hf d).2.1 hgt)

/-- With no `>` left in the input, a pending tag buffer is flushed
verbatim at the end. -/
theorem stripAux_gtFree_flush : ∀ (s mid : List Char), gtFree s = true →
    stripAux (some mid) s = '<' :: mid ++ s := by
  intro s
  induction s with
  | nil => intro mid _; simp [stripAux]
  | cons c r ih =>
    intro mid hg
    have hc : ¬ c = '>' := by
      simp only [gtFree, List.all_cons, Bool.and_eq_true,
        decide_eq_true_eq] at hg
      exact hg.1
    have hr : gtFree r = true := by
      simp only [gtFree, List.all_cons, Bool.and_eq_true] at hg
      exact hg.2
    have he : stripAux (some mid) (c :: r) = stripAux (some (mid ++ [c])) r := by
      simp [stripAux, hc]
    rw [he, ih (mid ++ [c]) hr]
    simp

/-- The tag strip establishes the angle-bracket invariant: any kept
`<` is followed immediately by `>` or has no later `>` at all. -/
theorem ltOk_stripAux : ∀ (s : List Char) (buf : Option (List Char)),
    (match buf with
     | none => ltOk (stripAux none s) = true
     | some mid => gtFree mid = true → ltOk (stripAux (some mid) s) = true) := by
  intro s
  induction s with
  | nil =>
    intro buf
    cases buf with
    | none => rfl
    | some mid =>
      intro hg
      have he : stripAux (some mid) [] = '<' :: mid := by simp [stripAux]
      rw [he]
      exact ltOk_cons (ltOk_of_gtFree hg) (fun _ => Or.inr (Or.inr hg))
  | cons c r ih =>
    intro buf
    cases buf with
    | none =>
      by_cases hc : c = '<'
      · subst hc
        have he : stripAux none ('<' :: r) = stripAux (some []) r := by
          simp [stripAux]
        rw [he]
        exact ih (some []) rfl
      · have he : stripAux none (c :: r) = c :: stripAux none r := by
          simp [stripAux, hc]
        rw [he]
        exact ltOk_cons_inert hc (ih none)
    | some mid =>
      intro hg
      by_cases hc : c = '>'
      · subst hc
        by_cases hm : mid = []
        · subst hm
          have he : stripAux (some []) ('>' :: r) =
              '<' :: '>' :: stripAux none r := by
            simp [stripAux]
          rw [he]
          refine ltOk_cons ?_ ?_
          · exact ltOk_cons_inert (by decide) (ih none)
          · intro _
            exact Or.inr (Or.inl ⟨stripAux none r, rfl⟩)
        · have he : stripAux (some mid) ('>' :: r) = stripAux none r := by
            simp [stripAux, hm]
          rw [he]
          exact ih none
      · have he : stripAux (some mid) (c :: r) =
            stripAux (some (mid ++ [c])) r := by
          simp [stripAux, hc]
        rw [he]
        apply ih (some (mid ++ [c]))
        simp only [gtFree, List.all_append, List.all_cons, List.all_nil,
          Bool.and_eq_true, decide_eq_true_eq]
        exact ⟨by simpa [gtFree, List.all_eq_true] using hg, hc, trivial⟩

/-- The tag strip output satisfies the angle-bracket invariant. -/
theorem ltOk_stripTags (s : List Char) : ltOk (stripTags s) = true :=
  ltOk_stripAux s none

/-- `punctToSpace` reflects the angle brackets. -/
theorem punctToSpace_brackets (c : Char) :
    (punctToSpace c = '<' ↔ c = '<') ∧ (punctToSpace c = '>' ↔ c = '>') := by
  unfold punctToSpace
  split
  · next h =>
    constructor
    · constructor
      · intro h2; cases h2
      · intro h2
        subst h2
        rcases h with h | h | h | h | h | h <;> cases h
    · constructor
      · intro h2; cases h2
      · intro h2
        subst h2
        rcases h with h | h | h | h | h | h <;> cases h
  · exact ⟨Iff.rfl, Iff.rfl⟩

/-- `unifyTerm` reflects the angle brackets. -/
theorem unifyTerm_brackets (c : Char) :
    (unifyTerm c = '<' ↔ c = '<') ∧ (unifyTerm c = '>' ↔ c = '>') := by
  unfold unifyTerm
  split
  · next h =>
    constructor
    · constructor
      · intro h2; cases h2
      · intro h2
        subst h2
        rcases h with h | h | h <;> cases h
    · constructor
      · intro h2; cases h2
      · intro h2
        subst h2
        rcases h with h | h | h <;> cases h
  · exact ⟨Iff.rfl, Iff.rfl⟩

/-- `asciiLower` reflects the angle brackets. -/
theorem asciiLower_brackets (c : Char) :
    (asciiLower c = '<' ↔ c = '<') ∧ (asciiLower c = '>' ↔ c = '>') :=
  ⟨asciiLower_eq_iff (by decide), asciiLower_eq_iff (by decide)⟩

/-- The cleaned text satisfies the angle-bracket invariant. -/
theorem clean_text_ltOk (t : List Char) : ltOk (clean_text t) = true := by
  unfold clean_text
  simp only
  apply ltOk_map asciiLower_brackets
  apply ltOk_spAux
  apply ltOk_cwAux
  apply ltOk_trimAux _ _ _ (fun _ h => by cases h)
  rw [List.nil_append]
  apply ltOk_padAux
  apply ltOk_dedupAux
  apply ltOk_nlAux
  apply ltOk_append_dot
  apply ltOk_cwAux
  apply ltOk_trimAux _ _ _ (fun _ h => by cases h)
  rw [List.nil_append]
  apply ltOk_map unifyTerm_brackets
  apply ltOk_map punctToSpace_brackets
  exact ltOk_stripTags _

/-- Under the angle-bracket invariant a closing-tag pattern
`</...>` never occurs, so its first-occurrence replacement is the
identity. -/
theorem replaceFirstStr_id_of_ltOk (q rep : List Char) (hq : '>' ∈ q) :
    ∀ s, ltOk s = true → replaceFirstStr ('<' :: '/' :: q) rep s = s := by
  intro s
  induction s with
  | nil => intro _; rfl
  | cons c r ih =>
    intro h
    by_cases hp : ('<' :: '/' :: q).isPrefixOf (c :: r) = true
    · exfalso
      have hpre : ('<' :: '/' :: q) <+: (c :: r) :=
        List.isPrefixOf_iff_prefix.1 hp
      rcases hpre with ⟨t, ht⟩
      simp only [List.cons_append, List.cons.injEq] at ht
      have hc : c = '<' := ht.1.symm
      have hr : r = '/' :: (q ++ t) := ht.2.symm
      subst hc
      rcases ltOk_head_cond h with h2 | ⟨r', h2⟩ | h2
      · rw [hr] at h2; cases h2
      · rw [hr] at h2
        simp only [List.cons.injEq] at h2
        cases h2.1
      · rw [hr] at h2
        simp only [gtFree, List.all_cons, List.all_append,
          Bool.and_eq_true, List.all_eq_true, decide_eq_true_eq] at h2
        exact h2.2.1 '>' hq rfl
    · have he : replaceFirstStr ('<' :: '/' :: q) rep (c :: r) =
          c :: replaceFirstStr ('<' :: '/' :: q) rep r := by
        simp only [replaceFirstStr]
        rw [if_neg (by simpa using hp)]
      rw [he, ih (ltOk_tail h)]

/-- All nine closing-tag replacements are the identity under the
angle-bracket invariant. -/
theorem fullStopTagsStep_id {s : List Char} (h : ltOk s = true) :
    fullStopTagsStep s = s := by
  unfold fullStopTagsStep arrFullStopTags
  simp only [List.foldl_cons, List.foldl_nil]
  rw [replaceFirstStr_id_of_ltOk _ _ (by decide) s h]
  rw [replaceFirstStr_id_of_ltOk _ _ (by decide) s h]
  rw [replaceFirstStr_id_of_ltOk _ _ (by decide) s h]
  rw [replaceFirstStr_id_of_ltOk _ _ (by decide) s h]
  rw [replaceFirstStr_id_of_ltOk _ _ (by decide) s h]
  rw [replaceFirstStr_id_of_ltOk _ _ (by decide) s h]
  rw [replaceFirstStr_id_of_ltOk _ _ (by decide) s h]
  rw [replaceFirstStr_id_of_ltOk _ _ (by decide) s h]
  exact replaceFirstStr_id_of_ltOk _ _ (by decide) s h

/-- Under the angle-bracket invariant the tag regex never matches, so
the tag strip is the identity. -/
theorem stripTags_id : ∀ {s : List Char}, ltOk s = true → stripTags s = s := by
  intro s
  induction s with
  | nil => intro _; rfl
  | cons c r ih =>
    intro h
    by_cases hc : c = '<'
    · subst hc
      have he : stripTags ('<' :: r) = stripAux (some []) r := by
        simp [stripTags, stripAux]
      rw [he]
      rcases ltOk_head_cond h with h2 | ⟨r', h2⟩ | h2
      · subst h2
        simp [stripAux]
      · subst h2
        have he2 : stripAux (some ([] : List Char)) ('>' :: r') =
            '<' :: '>' :: stripAux none r' := by
          simp [stripAux]
        rw [he2]
        have hih : stripTags ('>' :: r') = '>' :: r' := ih (ltOk_tail h)
        have he3 : stripTags ('>' :: r') = '>' :: stripAux none r' := by
          simp [stripTags, stripAux]
        rw [he3] at hih
        simp only [List.cons.injEq, true_and] at hih
        rw [hih]
      · rw [stripAux_gtFree_flush r [] h2]
        rfl
    · have he : stripTags (c :: r) = c :: stripTags r := by
        simp [stripTags, stripAux, hc]
      rw [he, ih (ltOk_tail h)]

/-- A pointwise-identity map is the identity. -/
theorem map_id_on {f : Char → Char} : ∀ {s : List Char},
    (∀ c ∈ s, f c = c) → s.map f = s := by
  intro s
  induction s with
  | nil => intro _; rfl
  | cons c r ih =>
    intro h
    rw [List.map_cons, h c (by simp), ih (fun x hx => h x (List.mem_cons_of_mem _ hx))]

/-- `punctToSpace` fixes every non-banned character. -/
theorem punctToSpace_id_of_not_banned {c : Char} (h : bannedChar c = false) :
    punctToSpace c = c := by
  unfold punctToSpace
  rw [if_neg]
  intro h2
  simp only [bannedChar, decide_eq_false_iff_not] at h
  push_neg at h
  rcases h2 with h2 | h2 | h2 | h2 | h2 | h2
  · exact h.1 h2
  · exact h.2.1 h2
  · exact h.2.2.1 h2
  · exact h.2.2.2.1 h2
  · exact h.2.2.2.2.1 h2
  · exact h.2.2.2.2.2.1 h2

/-- `unifyTerm` fixes every non-banned character. -/
theorem unifyTerm_id_of_not_banned {c : Char} (h : bannedChar c = false) :
    unifyTerm c = c := by
  unfold unifyTerm
  split
  · next h2 =>
    simp only [bannedChar, decide_eq_false_iff_not] at h
    push_neg at h
    rcases h2 with h2 | h2 | h2
    · exact h2.symm
    · exact absurd h2 h.2.2.2.2.2.2.1
    · exact absurd h2 h.2.2.2.2.2.2.2
  · rfl

/-- Append one character whose left neighbour is constrained only
through the last element. -/
theorem noPair_append_singleton_last {p : Char → Char → Bool} {c : Char} :
    ∀ {s : List Char}, noPair p s = true →
    (∀ a, s.getLast? = some a → p a c = false) →
    noPair p (s ++ [c]) = true := by
  intro s
  induction s with
  | nil => intro _ _; rfl
  | cons a r ih =>
    intro h hl
    cases r with
    | nil =>
      have : p a c = false := hl a rfl
      simp [noPair, this]
    | cons b r' =>
      rw [List.cons_append]
      refine noPair_cons (ih (noPair_tail h) ?_) ?_
      · intro x hx
        apply hl x
        rw [getLast?_cons_ne_nil (by simp)]
        exact hx
      · intro e t he
        rw [List.cons_append] at he
        simp only [List.cons.injEq] at he
        rw [← he.1]
        exact noPair_head h

/-- On normalized text the duplicate-terminator collapse of the
re-appended terminator deletes exactly the space after each terminator
and merges the doubled final terminator. -/
theorem dedup_roundtrip : ∀ (n : Nat) (s : List Char), s.length ≤ n →
    noPair dotNoSpP s = true →
    noPair spDotP s = true →
    noPair wsPairP s = true →
    s.getLast? = some '.' →
    dedupAux false (s ++ ['.']) = dropDotSpace s := by
  intro n
  induction n with
  | zero =>
    intro s hlen _ _ _ hend
    have : s = [] := List.length_eq_zero.1 (Nat.le_zero.1 hlen)
    subst this
    cases hend
  | succ n ih =>
    intro s hlen hdot hspd hwsp hend
    cases s with
    | nil => cases hend
    | cons c r =>
      by_cases hc : c = '.'
      · subst hc
        cases r with
        | nil => decide
        | cons d r2 =>
          have hd : d = ' ' := by
            have := noPair_head hdot
            simp only [dotNoSpP, Bool.and_eq_true, decide_eq_true_eq,
              Bool.not_eq_eq_eq_not] at this
            rcases Decidable.em (d = ' ') with h1 | h1
            · exact h1
            · exfalso; simp [h1] at this
          subst hd
          have hr2ne : r2 ≠ [] := by
            intro hn
            subst hn
            simp only [List.getLast?_cons_cons, List.getLast?_singleton,
              Option.some_inj] at hend
            exact absurd hend (by decide)
          have hr2end : r2.getLast? = some '.' := by
            rw [List.getLast?_cons_cons, getLast?_cons_ne_nil hr2ne] at hend
            exact hend
          rcases r2 with _ | ⟨e, r3⟩
          · exact absurd rfl hr2ne
          · have he1 : ¬ e = '.' := by
              have := noPair_head (noPair_tail hspd)
              simp only [spDotP, Bool.and_eq_true, decide_eq_true_eq] at this
              intro hn
              simp [hn] at this
            have he2 : ¬ e = ' ' := by
              have := noPair_head (noPair_tail hwsp)
              simp only [wsPairP, Bool.and_eq_true] at this
              intro hn
              rw [hn] at this
              simp [show jsWs ' ' = true from by decide] at this
            have hstep : dedupAux false (('.' :: ' ' :: e :: r3) ++ ['.']) =
                '.' :: e :: dedupAux false (r3 ++ ['.']) := by
              simp [dedupAux, he1, he2]
            have hstep2 : dedupAux false ((e :: r3) ++ ['.']) =
                e :: dedupAux false (r3 ++ ['.']) := by
              simp [dedupAux, he1]
            have hihr := ih (e :: r3) (by simp at hlen ⊢; omega)
              (noPair_tail (noPair_tail hdot))
              (noPair_tail (noPair_tail hspd))
              (noPair_tail (noPair_tail hwsp)) hr2end
            rw [hstep2] at hihr
            have hdds : dropDotSpace ('.' :: ' ' :: e :: r3) =
                '.' :: dropDotSpace (e :: r3) := by
              simp [dropDotSpace]
            rw [hstep, hdds, ← hihr]
      · have hrne : r ≠ [] := by
          intro hn
          subst hn
          simp only [List.getLast?_singleton, Option.some_inj] at hend
          exact hc hend
        have hrend : r.getLast? = some '.' := by
          rw [getLast?_cons_ne_nil hrne] at hend
          exact hend
        have hstep : dedupAux false ((c :: r) ++ ['.']) =
            c :: dedupAux false (r ++ ['.']) := by
          simp [dedupAux, hc]
        have hihr := ih r (by simp at hlen ⊢; omega)
          (noPair_tail hdot) (noPair_tail hspd) (noPair_tail hwsp) hrend
        have hdds : dropDotSpace (c :: r) = c :: dropDotSpace r := by
          cases r with
          | nil => exact absurd rfl hrne
          | cons d r2 =>
            by_cases hcd : c = '.'
            · exact absurd hcd hc
            · simp [dropDotSpace, hcd]
        rw [hstep, hihr, hdds]

/-- On normalized text the padding step re-inserts exactly the spaces
removed by `dropDotSpace` and appends one trailing space. -/
theorem pad_roundtrip : ∀ (n : Nat) (s : List Char), s.length ≤ n →
    noPair dotNoSpP s = true →
    noPair spDotP s = true →
    noPair wsPairP s = true →
    (∀ c ∈ s, jsWs c = true → c = ' ') →
    s.getLast? = some '.' →
    padAux 0 (dropDotSpace s) = s ++ [' '] := by
  intro n
  induction n with
  | zero =>
    intro s hlen _ _ _ _ hend
    have : s = [] := List.length_eq_zero.1 (Nat.le_zero.1 hlen)
    subst this
    cases hend
  | succ n ih =>
    intro s hlen hdot hspd hwsp hws hend
    cases s with
    | nil => cases hend
    | cons c r =>
      have hrtail : ∀ x ∈ r, jsWs x = true → x = ' ' :=
        fun x hx => hws x (List.mem_cons_of_mem _ hx)
      by_cases hc : c = '.'
      · subst hc
        cases r with
        | nil => decide
        | cons d r2 =>
          have hd : d = ' ' := by
            have := noPair_head hdot
            simp only [dotNoSpP, Bool.and_eq_true, decide_eq_true_eq,
              Bool.not_eq_eq_eq_not] at this
            rcases Decidable.em (d = ' ') with h1 | h1
            · exact h1
            · exfalso; simp [h1] at this
          subst hd
          have hr2ne : r2 ≠ [] := by
            intro hn
            subst hn
            simp only [List.getLast?_cons_cons, List.getLast?_singleton,
              Option.some_inj] at hend
            exact absurd hend (by decide)
          have hr2end : r2.getLast? = some '.' := by
            rw [List.getLast?_cons_cons, getLast?_cons_ne_nil hr2ne] at hend
            exact hend
          have hdds : dropDotSpace ('.' :: ' ' :: r2) =
              '.' :: dropDotSpace r2 := by
            simp [dropDotSpace]
          have hihr := ih r2 (by simp at hlen ⊢; omega)
            (noPair_tail (noPair_tail hdot))
            (noPair_tail (noPair_tail hspd))
            (noPair_tail (noPair_tail hwsp))
            (fun x hx => hrtail x (List.mem_cons_of_mem _ hx)) hr2end
          rw [hdds]
          have hstep : padAux 0 ('.' :: dropDotSpace r2) =
              '.' :: ' ' :: padAux 0 (dropDotSpace r2) := by
            simp [padAux]
          rw [hstep, hihr]
          rfl
      · have hrne : r ≠ [] := by
          intro hn
          subst hn
          simp only [List.getLast?_singleton, Option.some_inj] at hend
          exact hc hend
        have hrend : r.getLast? = some '.' := by
          rw [getLast?_cons_ne_nil hrne] at hend
          exact hend
        have hdds : dropDotSpace (c :: r) = c :: dropDotSpace r := by
          cases r with
          | nil => exact absurd rfl hrne
          | cons d r2 =>
            simp [dropDotSpace, hc]
        have hihr := ih r (by simp at hlen ⊢; omega)
          (noPair_tail hdot) (noPair_tail hspd) (noPair_tail hwsp)
          hrtail hrend
        rw [hdds]
        by_cases hsp : c = ' '
        · subst hsp
          rcases r with _ | ⟨e, r2⟩
          · exact absurd rfl hrne
          · have he1 : ¬ e = '.' := by
              have := noPair_head hspd
              simp only [spDotP, Bool.and_eq_true, decide_eq_true_eq] at this
              intro hn
              simp [hn] at this
            have he2 : ¬ e = ' ' := by
              have := noPair_head hwsp
              simp only [wsPairP, Bool.and_eq_true] at this
              intro hn
              rw [hn] at this
              simp [show jsWs ' ' = true from by decide] at this
            have hdds2 : dropDotSpace (e :: r2) = e :: dropDotSpace r2 := by
              cases r2 with
              | nil => simp [dropDotSpace, he1]
              | cons f r3 => simp [dropDotSpace, he1]
            have hstep : padAux 0 (' ' :: dropDotSpace (e :: r2)) =
                ' ' :: padAux 0 (dropDotSpace (e :: r2)) := by
              rw [hdds2]
              have h1 : padAux 0 (' ' :: e :: dropDotSpace r2) =
                  padAux 1 (e :: dropDotSpace r2) := by
                simp [padAux]
              have h2 : padAux 1 (e :: dropDotSpace r2) =
                  ' ' :: e :: padAux 0 (dropDotSpace r2) := by
                simp [padAux, he1, he2]
              have h3 : padAux 0 (e :: dropDotSpace r2) =
                  e :: padAux 0 (dropDotSpace r2) := by
                simp [padAux, he1, he2]
              rw [h1, h2, h3]
            rw [hstep, hihr]
            rfl
        · have hstep : padAux 0 (c :: dropDotSpace r) =
              c :: padAux 0 (dropDotSpace r) := by
            simp [padAux, hc, hsp]
          rw [hstep, hihr]
          rfl

/-! ### Claims -/

/-- Claim C9: for every input string the `clean_text` output contains
no run of two or more terminators, no space immediately before a
terminator, no leading or trailing whitespace, no run of two or more
spaces, ends with a single final terminator, and contains no uppercase
ASCII letter. -/
theorem clean_text_normalized (t : List Char) :
    noPair (fun a b => a = '.' && b = '.') (clean_text t) = true ∧
    noPair spDotP (clean_text t) = true ∧
    (∀ c, (clean_text t).head? = some c → jsWs c = false) ∧
    (∀ c, (clean_text t).getLast? = some c → jsWs c = false) ∧
    noPair (fun a b => a = ' ' && b = ' ') (clean_text t) = true ∧
    (clean_text t).getLast? = some '.' ∧
    (∀ c ∈ clean_text t, ¬ (0x41 ≤ c.toNat ∧ c.toNat ≤ 0x5a)) := by
  obtain ⟨hwsp, hdot, hspd, hhead, hlast, hws, hban, hlow⟩ := clean_text_invariants t
  refine ⟨?_, hspd, hhead, ?_, ?_, hlast, ?_⟩
  · refine noPair_mono ?_ hdot
    intro a b hab
    simp only [Bool.and_eq_true, decide_eq_true_eq] at hab
    simp [dotNoSpP, hab.1, hab.2]
  · intro c hc
    rw [hlast] at hc
    simp only [Option.some_inj] at hc
    subst hc
    decide
  · refine noPair_mono ?_ hwsp
    intro a b hab
    simp only [Bool.and_eq_true, decide_eq_true_eq] at hab
    simp [wsPairP, hab.1, hab.2, show jsWs ' ' = true from by decide]
  · intro c hc
    have h := asciiLower_not_upper c
    rw [hlow c hc] at h
    exact h

/-- Claim C10: the word count of the cleaned text is at least the
sentence count (each terminator except the final one is followed by a
space), and the average words per sentence is at least 1. -/
theorem word_count_ge_sentence_count (t : List Char) :
    sentence_count t ≤ word_count t ∧
    1 ≤ average_words_per_sentence t := by
  have key : ∀ u : List Char, sentence_count u ≤ word_count u := by
    intro u
    obtain ⟨hwsp, hdot, hspd, hhead, hlast, hws, hban, hlow⟩ :=
      clean_text_invariants u
    have hterm : (clean_text u).countP isTermChar =
        (clean_text u).countP (fun c => c = '.') := by
      apply List.countP_congr
      intro c hc
      have hb := hban c hc
      simp only [bannedChar, decide_eq_false_iff_not] at hb
      push_neg at hb
      simp only [isTermChar, decide_eq_true_eq]
      constructor
      · intro h
        rcases h with h | h | h
        · exact h
        · exact absurd h hb.2.2.2.2.2.2.1
        · exact absurd h hb.2.2.2.2.2.2.2
      · exact Or.inl
    have hdots := dots_le_spaces (clean_text u).length (clean_text u) le_rfl hdot
    rw [hlast] at hdots
    norm_num at hdots
    have hwc : word_count u =
        1 + (clean_text u).countP (fun c => c = ' ') := by
      unfold word_count text_length
      rw [List.countP_eq_length_filter]
    unfold sentence_count
    rw [hterm, hwc]
    omega
  refine ⟨key t, ?_⟩
  have hpos : 0 < sentence_count (clean_text t) :=
    List.countP_pos_iff.2 ⟨'.', dot_mem_clean_text (clean_text t), by decide⟩
  unfold average_words_per_sentence
  rw [one_le_div (by exact_mod_cast hpos)]
  exact_mod_cast key (clean_text t)

/-- Claim C3: normalization is idempotent.  On already-normalized text
the tag steps, punctuation and terminator maps, trims and collapses are
all identities; the appended terminator together with the duplicate
collapse and the padding step reconstructs the original spacing. -/
theorem clean_text_idempotent (t : List Char) :
    clean_text (clean_text t) = clean_text t := by
  obtain ⟨hwsp, hdot, hspd, hhead, hlast, hws, hban, hlow⟩ :=
    clean_text_invariants t
  have hlt := clean_text_ltOk t
  set X := clean_text t with hX
  have h1 : fullStopTagsStep X = X := fullStopTagsStep_id hlt
  have h2 : stripTags X = X := stripTags_id hlt
  have h3 : X.map punctToSpace = X :=
    map_id_on (fun c hc => punctToSpace_id_of_not_banned (hban c hc))
  have h4 : X.map unifyTerm = X :=
    map_id_on (fun c hc => unifyTerm_id_of_not_banned (hban c hc))
  have hlastws : ∀ c, X.getLast? = some c → jsWs c = false := by
    intro c hc
    rw [hlast] at hc
    simp only [Option.some_inj] at hc
    subst hc
    decide
  have h5 : trimRegex X = X := trimRegex_id X hws hwsp hhead hlastws
  have h6 : collapseWs X = X := collapseWs_id X hws hwsp
  have h7 : nlStep (X ++ ['.']) = X ++ ['.'] := by
    apply nlStep_id
    intro c hc
    rcases List.mem_append.1 hc with h | h
    · constructor
      · intro hn
        subst hn
        have := hws _ h (by decide)
        exact absurd this (by decide)
      · intro hn
        subst hn
        have := hws _ h (by decide)
        exact absurd this (by decide)
    · simp only [List.mem_singleton] at h
      subst h
      exact ⟨by decide, by decide⟩
  have h8 : dedup (X ++ ['.']) = dropDotSpace X :=
    dedup_roundtrip X.length X le_rfl hdot hspd hwsp hlast
  have h9 : pad (dropDotSpace X) = X ++ [' '] :=
    pad_roundtrip X.length X le_rfl hdot hspd hwsp hws hlast
  have hXne : X ≠ [] := by
    intro hn
    rw [hn] at hlast
    cases hlast
  have h10 : trimRegex (X ++ [' ']) = X := by
    have hd := trimRegex_dropLast (X ++ [' '])
      (by
        intro c hc
        rcases List.mem_append.1 hc with h | h
        · exact hws c h
        · simp only [List.mem_singleton] at h
          intro _
          exact h)
      (by
        apply noPair_append_singleton_last hwsp
        intro a ha
        rw [hlast] at ha
        simp only [Option.some_inj] at ha
        subst ha
        decide)
      (by
        intro c hc
        rw [head?_append_ne_nil hXne] at hc
        exact hhead c hc)
      (by
        rw [show X ++ [' '] = X ++ [' '] from rfl]
        exact List.getLast?_concat X)
    rw [hd]
    exact List.dropLast_concat
  have h11 : collapseSp X = X := collapseSp_id X hws hwsp
  have h12 : X.map asciiLower = X := map_id_on hlow
  show clean_text X = X
  unfold clean_text
  simp only
  rw [h1, h2, h3, h4, h5, h6, h7, h8, h9, h10, h6, h11, h12]

/-- Claim C1, counterexample: on the word `rged` the pattern arithmetic
yields `-1` (one nucleus, two subtractive matches), the `== 0` test does
not fire, and `syllable_count` returns `-1`, which is below the claimed
lower bound of 1. -/
theorem syllable_count_rged_counterexample :
    syllable_count (String.toList "rged") = -1 ∧
    ¬ (1 ≤ syllable_count (String.toList "rged")) := by decide

/-- Claim C1, amended: the source clamps only a count that is exactly
zero (`intSyllableCount == 0`), so the result is never 0, and is at
least 1 whenever the pattern arithmetic is nonnegative; a negative
arithmetic result is returned unchanged. -/
theorem syllable_count_never_zero (w : List Char) :
    syllable_count w ≠ 0 ∧
    (0 ≤ syllable_count_arith (w.map asciiLower) → 1 ≤ syllable_count w) := by
  unfold syllable_count
  cases hl : List.lookup (w.map asciiLower) arrProblemWords with
  | some n =>
    rcases lookup_arrProblemWords hl with h | h <;> subst h <;> simp [hl]
  | none =>
    simp only [hl]
    constructor
    · split
      · omega
      · assumption
    · intro h0
      split
      · omega
      · omega

/-- Claim C1, witness for the amended theorem at the word `cat`. -/
theorem syllable_count_never_zero_witness :
    syllable_count (String.toList "cat") ≠ 0 ∧
    1 ≤ syllable_count (String.toList "cat") :=
  ⟨(syllable_count_never_zero (String.toList "cat")).1,
   (syllable_count_never_zero (String.toList "cat")).2 (by decide)⟩

/-- Claim C2, counterexample: `syllable_count "lion"` is not 2.  The
nucleus split of `lion` gives one fragment (`io`), the subtractive
pattern `ion` fires and the additive pattern `io` fires, so the total
is 1. -/
theorem syllable_count_lion_counterexample :
    syllable_count (String.toList "lion") ≠ 2 := by decide

/-- Claim C2, amended: `syllable_count "lion"` returns 1. -/
theorem syllable_count_lion :
    syllable_count (String.toList "lion") = 1 := by decide

/-- Claim C4, counterexample: the tag loop uses a string pattern, which
JavaScript replaces once, so only the first of three `</p>` closings
becomes a terminator; the input below cleans to `a. bcd.`, not to the
result of converting every `</p>` (which is what cleaning `a.b.c.d`
yields). -/
theorem clean_text_tags_counterexample :
    clean_text (String.toList "a</p>b</p>c</p>d") = String.toList "a. bcd." ∧
    clean_text (String.toList "a.b.c.d") = String.toList "a. b. c. d." ∧
    clean_text (String.toList "a</p>b</p>c</p>d") ≠
      clean_text (String.toList "a.b.c.d") := by decide

/-- Claim C4, amended: for each block-level tag name, only the first
occurrence of the closing tag is replaced with a terminator; later
occurrences are removed by the tag-stripping step, so an input with
three `</p>` closings gains only one implicit sentence break. -/
theorem clean_text_tags_first_only :
    clean_text (String.toList "a</p>b") = String.toList "a. b." ∧
    clean_text (String.toList "a</p>b</p>c</p>d") = String.toList "a. bcd." ∧
    sentence_count (String.toList "a</p>b</p>c</p>d") = 2 := by decide

/-- Claim C5, counterexample: the affix loop runs before the non-letter
strip, so a trailing terminator defeats the end-anchored affix
patterns: `hopeless.` counts 3 while `hopeless` counts 2. -/
theorem syllable_count_trailing_dot_counterexample :
    syllable_count (String.toList "hopeless" ++ ['.']) ≠
      syllable_count (String.toList "hopeless") := by decide

/-- Claim C5, amended: the trailing terminator is removed by the
non-letter strip before nucleus counting, so the nucleus count itself
is unaffected; but the strip runs after the exception lookup and the
affix loop, so a trailing terminator can still change the overall
count. -/
theorem vowelGroups_trailing_dot (w : List Char) :
    vowelGroups ((w ++ ['.']).filter isLowerAlpha) =
      vowelGroups (w.filter isLowerAlpha) := by
  have h : (w ++ ['.']).filter isLowerAlpha = w.filter isLowerAlpha := by
    simp [List.filter_append, isLowerAlpha]
  rw [h]

/-- Claim C6: the proper-noun flag is overwritten with `true` on entry
in both functions, so it cannot influence the result. -/
theorem count_proper_nouns_flag_inert (t : List Char) :
    words_with_three_syllables t true = words_with_three_syllables t false ∧
    percentage_words_with_three_syllables t true =
      percentage_words_with_three_syllables t false :=
  ⟨rfl, rfl⟩

/-- Claim C7: the embedding of every operation is a total function of
the input string; the only partial step in the source,
`match(/[\.!?]/g)` returning `null` inside `sentence_count`, never
fires because the cleaned text always contains a terminator, so
`sentence_count` and `word_count` are defined and at least 1 on every
input, including the empty and whitespace-only strings. -/
theorem counts_positive_and_total (t : List Char) :
    sentence_count_js t = some (sentence_count t) ∧
    1 ≤ sentence_count t ∧ 1 ≤ word_count t := by
  have hpos : 0 < (clean_text t).countP isTermChar :=
    List.countP_pos_iff.2 ⟨'.', dot_mem_clean_text t, by decide⟩
  refine ⟨?_, hpos, ?_⟩
  · unfold sentence_count_js sentence_count
    simp only
    rw [if_neg (by omega)]
  · unfold word_count
    omega

/-- Claim C8: the average grade level is the arithmetic mean of the
five grade formulas, excluding Flesch-Kincaid Reading Ease. -/
theorem average_grade_level_is_mean (t : List Char) :
    average_grade_level t =
      arithmeticMean [flesch_kincaid_grade_level t, gunning_fog_score t,
        coleman_liau_index t, smog_index t, automated_readability_index t] := by
  simp only [average_grade_level, arithmeticMean, List.sum_cons, List.sum_nil,
    List.length_cons, List.length_nil]
  norm_num
  ring

end TextStatistics

